import Mathlib

/-!
Verification of the glob-pattern matching engine and the inclusion/exclusion
composer of the git-diff-filter repository.

The definitions below are a shallow embedding of src/matcher.rs and of the
composition loop of src/main.rs.  Patterns and candidate paths are byte
sequences, modelled as lists of natural numbers below 256; all control
bytes of the glob syntax are single ASCII bytes, exactly as in the source.
Index-based walks over the pattern are re-expressed as walks over the
remaining pattern suffix; loops whose index jumps non-structurally take an
explicit fuel argument that the top-level entry points instantiate with a
sufficient bound.
-/

set_option maxHeartbeats 1000000

namespace GitDiffFilter

/-- A byte of a pattern or of a candidate path. -/
abbrev Byte := Nat

/-- ASCII code of the star wildcard. -/
def bStar : Byte := 42
/-- ASCII code of the path separator. -/
def bSlash : Byte := 47
/-- ASCII code of the single-character wildcard. -/
def bQuest : Byte := 63
/-- ASCII code of the escape character. -/
def bBackslash : Byte := 92
/-- ASCII code of the opening bracket of a character class. -/
def bLbrack : Byte := 91
/-- ASCII code of the closing bracket of a character class. -/
def bRbrack : Byte := 93
/-- ASCII code of the negation marker of the composer. -/
def bBang : Byte := 33
/-- ASCII code of the caret, alternative class negation marker. -/
def bCaret : Byte := 94
/-- ASCII code of the dash, range separator inside a character class. -/
def bDash : Byte := 45

/-- Bytes of an ASCII string literal, used to build concrete test inputs. -/
def bs (s : String) : List Byte := s.data.map Char.toNat

/-- One item of a parsed character class: a single byte or an inclusive range. -/
inductive CharSetItem where
  | single (b : Byte)
  | range (lo hi : Byte)
deriving DecidableEq, Repr

/-- Parsed character class: items plus negation flag (struct CharSet). -/
structure CharSet where
  items : List CharSetItem
  negated : Bool
deriving DecidableEq, Repr

/-- CharSet::matches of the source. -/
def CharSet.matches (cs : CharSet) (b : Byte) : Bool :=
  let contains := cs.items.any fun item =>
    match item with
    | .single c => c == b
    | .range lo hi => decide (lo ≤ b) && decide (b ≤ hi)
  if cs.negated then !contains else contains

/-- Error message of an invalid range, as formatted by the source. -/
def rangeErr (lo hi : Byte) : String :=
  "Invalid range [" ++ String.mk [Char.ofNat lo] ++ "-" ++ String.mk [Char.ofNat hi] ++ "]"

/-- Body of extract_charset after the opening bracket and the optional
negation marker: walks the remaining pattern suffix collecting items until
the closing bracket. -/
def extractCharsetGo (negated : Bool) :
    List CharSetItem → List Byte → Except String (CharSet × List Byte)
  | _, [] => .error "Unclosed character class"
  | _, 92 :: [] => .error "Pattern ends with backslash in character class"
  | items, 92 :: e :: rest2 => extractCharsetGo negated (items ++ [CharSetItem.single e]) rest2
  | items, 93 :: rest =>
    if items.isEmpty then .error "Empty character class"
    else .ok (⟨items, negated⟩, rest)
  | items, c :: 45 :: 93 :: rest2 =>
    -- the dash before the closing bracket is literal; the next loop
    -- iteration of the source closes the class at that bracket
    .ok (⟨items ++ [CharSetItem.single c, CharSetItem.single bDash], negated⟩, rest2)
  | items, c :: 45 :: e :: rest2 =>
    if c > e then .error (rangeErr c e)
    else extractCharsetGo negated (items ++ [CharSetItem.range c e]) rest2
  | items, c :: rest => extractCharsetGo negated (items ++ [CharSetItem.single c]) rest

/-- extract_charset of the source: expects the suffix to begin with an
opening bracket, parses the optional negation marker and the items, and
returns the class together with the suffix just past the closing bracket. -/
def extractCharset : List Byte → Except String (CharSet × List Byte)
  | 91 :: rest =>
    match rest with
    | 33 :: rest2 => extractCharsetGo true [] rest2
    | 94 :: rest2 => extractCharsetGo true [] rest2
    | _ => extractCharsetGo false [] rest
  | _ => .error "Expected opening bracket at start of character class"

/-- Working state of one candidate during a batch match (struct ActiveString). -/
structure ActiveString where
  originalIdx : Nat
  bytes : List Byte
  position : Nat
deriving DecidableEq, Repr

/-- ActiveString::current_byte. -/
def ActiveString.currentByte (s : ActiveString) : Option Byte :=
  s.bytes.get? s.position

/-- ActiveString::advance. -/
def ActiveString.advance (s : ActiveString) : ActiveString :=
  { s with position := s.position + 1 }

/-- Vec::swap_remove on the active list: the last element replaces the
element at the given index and the list shrinks by one. -/
def swapRemove (l : List ActiveString) (i : Nat) : List ActiveString :=
  match l.getLast? with
  | none => []
  | some last => (l.set i last).dropLast

/-- Loop body of consume_byte: element at the cursor advances when the
predicate holds on its current byte, otherwise it is marked false and
swap-removed.  The first argument counts the remaining elements to
process and decreases by exactly one per step. -/
def consumeByteGo (pred : Option Byte → Bool) :
    Nat → Nat → List ActiveString → List Bool → List ActiveString × List Bool
  | 0, _, active, results => (active, results)
  | rem + 1, i, active, results =>
    match active.get? i with
    | none => (active, results)
    | some s =>
      if pred s.currentByte then
        consumeByteGo pred rem (i + 1) (active.set i s.advance) results
      else
        consumeByteGo pred rem i (swapRemove active i) (results.set s.originalIdx false)

/-- consume_byte of the source. -/
def consumeByte (pred : Option Byte → Bool) (active : List ActiveString)
    (results : List Bool) : List ActiveString × List Bool :=
  consumeByteGo pred active.length 0 active results

/-- The pattern matching state machine states (enum PatternState). -/
inductive PatternState where
  | Literal
  | InWildcard
  | InPossibleGlobstar
  | InGlobstar
  | InSuperWild
deriving DecidableEq, Repr

/-- The inner anchor walk of match_wildcard_segment: starting from a trial
position in the candidate, match pattern bytes inline until the next star
or the pattern end.  Returns whether the segment matched, the pattern
suffix at which the walk stopped, and the candidate position reached.
Fuel decreases by one per processed item; the wrapper passes the segment
length, which suffices because every step drops at least one pattern byte. -/
def walkSegGo (bytes : List Byte) :
    Nat → List Byte → Nat → Except String (Bool × List Byte × Nat)
  | _, [], sidx => .ok (true, [], sidx)
  | 0, ps, sidx => .ok (false, ps, sidx)
  | fuel + 1, c :: rest, sidx =>
    if c = bBackslash then
      match rest with
      | [] => .error "Pattern ends with backslash"
      | e :: rest2 =>
        if bytes.get? sidx = some e then walkSegGo bytes fuel rest2 (sidx + 1)
        else .ok (false, rest, sidx)
    else if c = bStar then
      .ok (true, c :: rest, sidx)
    else if c = bLbrack then
      match extractCharset (c :: rest) with
      | .error e => .error e
      | .ok (charset, after) =>
        match bytes.get? sidx with
        | some b =>
          if charset.matches b then walkSegGo bytes fuel after (sidx + 1)
          else .ok (false, after, sidx)
        | none => .ok (false, after, sidx)
    else if c = bQuest then
      match bytes.get? sidx with
      | some b =>
        if b ≠ bSlash then walkSegGo bytes fuel rest (sidx + 1)
        else .ok (false, rest, sidx)
      | none => .ok (false, rest, sidx)
    else
      if bytes.get? sidx = some c then walkSegGo bytes fuel rest (sidx + 1)
      else .ok (false, c :: rest, sidx)

/-- The anchor walk with its canonical fuel. -/
def walkSeg (patSeg : List Byte) (bytes : List Byte) (sidx : Nat) :
    Except String (Bool × List Byte × Nat) :=
  walkSegGo bytes patSeg.length patSeg sidx

/-- Count of non-slash bytes immediately preceding a position, scanning
backwards and stopping at a slash or at the wildcard start position. -/
def countBack (bytes : List Byte) (startPos : Nat) : Nat → Nat
  | 0 => 0
  | pos + 1 =>
    if pos + 1 > startPos ∧ ¬ bytes.get? pos = some bSlash then
      countBack bytes startPos pos + 1
    else 0

/-- The trial loop of match_wildcard_segment for one candidate: try
successive candidate positions, subject to the required-character count and
the terminating rule of wildcard mode, until the anchor walk succeeds.
Returns the new candidate position and the pattern suffix at which the walk
stopped, or none when the candidate fails.  The fuel counts the remaining
trial positions and decreases by exactly one per trial. -/
def tryFrom (patSeg : List Byte) (globstar : Bool) (requiredChars : Nat)
    (bytes : List Byte) (startPos : Nat) :
    Nat → Nat → Bool → Except String (Option (Nat × List Byte))
  | 0, _, _ => .ok none
  | rem + 1, tryPos, terminating =>
    if !globstar && terminating then .ok none
    else
      let charsBeforeTry := if globstar then countBack bytes startPos tryPos
                            else tryPos - startPos
      if requiredChars > 0 ∧ charsBeforeTry < requiredChars then
        tryFrom patSeg globstar requiredChars bytes startPos rem (tryPos + 1) terminating
      else if requiredChars > 0 ∧ charsBeforeTry > requiredChars then
        if !globstar then .ok none
        else tryFrom patSeg globstar requiredChars bytes startPos rem (tryPos + 1) terminating
      else
        let terminating2 := terminating || (!globstar && bytes.get? tryPos == some bSlash)
        match walkSeg patSeg bytes tryPos with
        | .error e => .error e
        | .ok (matched, pstop, sstop) =>
          if matched then .ok (some (sstop, pstop))
          else tryFrom patSeg globstar requiredChars bytes startPos rem (tryPos + 1) terminating2

/-- Advance a candidate up to but not including the next slash (wildcard
exhaustion of the pattern). -/
def consumeToSlash (s : ActiveString) : ActiveString :=
  { s with position := s.position + ((s.bytes.drop s.position).takeWhile (fun b => !(b == bSlash))).length }

/-- Advance a candidate to its end (globstar exhaustion of the pattern). -/
def consumeAll (s : ActiveString) : ActiveString :=
  { s with position := s.bytes.length }

/-- The sweep of match_wildcard_segment over the active list: each
candidate runs its trial loop; failures are marked false and swap-removed;
the pattern suffix where the first successful walk stopped is recorded once
and shared.  The first numeric argument counts remaining elements. -/
def mwsGo (patSeg : List Byte) (globstar : Bool) (requiredChars : Nat) :
    Nat → Nat → Option (List Byte) → List ActiveString → List Bool →
    Except String (Option (List Byte) × List ActiveString × List Bool)
  | 0, _, nextIdx, active, results => .ok (nextIdx, active, results)
  | rem + 1, i, nextIdx, active, results =>
    match active.get? i with
    | none => .ok (nextIdx, active, results)
    | some s =>
      match tryFrom patSeg globstar requiredChars s.bytes s.position
          (s.bytes.length + 1 - s.position) s.position false with
      | .error e => .error e
      | .ok none =>
        mwsGo patSeg globstar requiredChars rem i nextIdx
          (swapRemove active i) (results.set s.originalIdx false)
      | .ok (some (newPos, pstop)) =>
        mwsGo patSeg globstar requiredChars rem (i + 1)
          (if nextIdx.isNone then some pstop else nextIdx)
          (active.set i { s with position := newPos }) results

/-- match_wildcard_segment of the source, with pattern positions given as
suffixes.  The empty-segment branch mirrors the pattern-exhausted branch of
the source; otherwise the sweep runs and an absent shared stop denotes the
pattern end. -/
def matchWildcardSegment (patSeg : List Byte) (globstar : Bool)
    (requiredChars : Nat) (active : List ActiveString) (results : List Bool) :
    Except String (List Byte × List ActiveString × List Bool) :=
  match patSeg with
  | [] =>
    .ok ([], active.map (fun s => if globstar then consumeAll s else consumeToSlash s), results)
  | _ :: _ =>
    match mwsGo patSeg globstar requiredChars active.length 0 none active results with
    | .error e => .error e
    | .ok (next, act, res) => .ok (next.getD [], act, res)

/-- Residual verdict of one candidate at pattern exhaustion: in Literal
state the candidate matches when its suffix is empty or begins with a
slash; every wildcard state accepts. -/
def exhaustVerdict (st : PatternState) (s : ActiveString) : Bool :=
  match st with
  | .Literal =>
    match s.currentByte with
    | none => true
    | some b => b == bSlash
  | _ => true

/-- The pattern-exhausted block of match_batch: record the residual verdict
of every still-active candidate. -/
def finishActive (st : PatternState) :
    List ActiveString → List Bool → List Bool
  | [], results => results
  | a :: rest, results =>
    finishActive st rest (results.set a.originalIdx (exhaustVerdict st a))

/-- One iteration of the main while loop of match_batch: dispatch on the
current pattern byte and the machine state, returning the next pattern
suffix, state, question-mark count, active list and result list. -/
def loopStep (c : Byte) (rest : List Byte) (st : PatternState) (qc : Nat)
    (active : List ActiveString) (results : List Bool) :
    Except String (List Byte × PatternState × Nat × List ActiveString × List Bool) :=
  if c = bStar then
    match st with
    | .Literal => .ok (rest, .InWildcard, qc, active, results)
    | .InWildcard => .ok (rest, .InPossibleGlobstar, qc, active, results)
    | .InPossibleGlobstar => .ok (rest, .InPossibleGlobstar, qc, active, results)
    | .InGlobstar => .ok (rest, .InSuperWild, qc, active, results)
    | .InSuperWild => .ok (rest, .InSuperWild, qc, active, results)
  else if c = bSlash then
    match st with
    | .InPossibleGlobstar => .ok (rest, .InGlobstar, qc, active, results)
    | .InGlobstar => .ok (rest, .InGlobstar, qc, active, results)
    | .InSuperWild => .ok (rest, .InSuperWild, qc, active, results)
    | .InWildcard =>
      match matchWildcardSegment (c :: rest) false qc active results with
      | .error e => .error e
      | .ok (next, act, res) => .ok (next, .Literal, 0, act, res)
    | .Literal =>
      let (act, res) := consumeByte (fun b => b == some bSlash) active results
      .ok (rest, .Literal, qc, act, res)
  else if c = bQuest then
    match st with
    | .Literal =>
      let (act, res) := consumeByte
        (fun b => match b with | some b2 => !(b2 == bSlash) | none => false) active results
      .ok (rest, .Literal, qc, act, res)
    | _ => .ok (rest, st, qc + 1, active, results)
  else if c = bBackslash then
    match st with
    | .Literal =>
      match rest with
      | [] => .error "Pattern ends with backslash"
      | e :: rest2 =>
        let (act, res) := consumeByte (fun b => b == some e) active results
        .ok (rest2, .Literal, qc, act, res)
    | .InWildcard | .InPossibleGlobstar =>
      match matchWildcardSegment (c :: rest) false qc active results with
      | .error e => .error e
      | .ok (next, act, res) => .ok (next, .Literal, 0, act, res)
    | .InGlobstar | .InSuperWild =>
      match matchWildcardSegment (c :: rest) true qc active results with
      | .error e => .error e
      | .ok (next, act, res) => .ok (next, .Literal, 0, act, res)
  else if c = bLbrack then
    match st with
    | .Literal =>
      match extractCharset (c :: rest) with
      | .error e => .error e
      | .ok (charset, after) =>
        let (act, res) := consumeByte
          (fun b => match b with | some b2 => charset.matches b2 | none => false) active results
        .ok (after, .Literal, qc, act, res)
    | .InWildcard | .InPossibleGlobstar =>
      match matchWildcardSegment (c :: rest) false qc active results with
      | .error e => .error e
      | .ok (next, act, res) => .ok (next, .Literal, 0, act, res)
    | .InGlobstar | .InSuperWild =>
      match matchWildcardSegment (c :: rest) true qc active results with
      | .error e => .error e
      | .ok (next, act, res) => .ok (next, .Literal, 0, act, res)
  else
    match st with
    | .Literal =>
      let (act, res) := consumeByte (fun b => b == some c) active results
      .ok (rest, .Literal, qc, act, res)
    | .InWildcard | .InPossibleGlobstar =>
      match matchWildcardSegment (c :: rest) false qc active results with
      | .error e => .error e
      | .ok (next, act, res) => .ok (next, .Literal, 0, act, res)
    | .InGlobstar | .InSuperWild =>
      match matchWildcardSegment (c :: rest) true qc active results with
      | .error e => .error e
      | .ok (next, act, res) => .ok (next, .Literal, 0, act, res)

/-- The main while loop of match_batch followed by the pattern-exhausted
block.  The loop runs while pattern bytes remain and the active list is
non-empty; the fuel bounds the number of iterations and every entry point
passes pattern length plus one, which suffices because each iteration
strictly shortens the pattern suffix. -/
def matchLoop : Nat → List Byte → PatternState → Nat →
    List ActiveString → List Bool → Except String (List Bool)
  | 0, _, _, _, _, _ => .error "fuel exhausted"
  | _ + 1, [], st, _, active, results => .ok (finishActive st active results)
  | _ + 1, _ :: _, _, _, [], results => .ok results
  | fuel + 1, c :: rest, st, qc, a :: as, results =>
    match loopStep c rest st qc (a :: as) results with
    | .error e => .error e
    | .ok (next, st2, qc2, act, res) => matchLoop fuel next st2 qc2 act res

/-- Strip at most one leading slash from the pattern. -/
def stripLeadSlash (p : List Byte) : List Byte :=
  match p with
  | 47 :: rest => rest
  | _ => p

/-- Strip at most one trailing slash from the pattern. -/
def stripTrailSlash (p : List Byte) : List Byte :=
  if p.getLast? = some bSlash then p.dropLast else p

/-- match_batch of the source: empty candidate lists short-circuit without
validating the pattern; otherwise the normalized pattern drives the state
machine over the active set built from the candidates. -/
def match_batch (pattern : List Byte) (strings : List (List Byte)) :
    Except String (List Bool) :=
  if strings.isEmpty then .ok []
  else
    let results : List Bool := List.replicate strings.length false
    let active : List ActiveString :=
      strings.enum.map fun p => ⟨p.1, p.2, 0⟩
    let np := stripTrailSlash (stripLeadSlash pattern)
    matchLoop (np.length + 1) np .Literal 0 active results

/-- matches_any of the source: true when any pattern matches the path,
short-circuiting on the first match and propagating pattern errors. -/
def matches_any (path : List Byte) : List (List Byte) → Except String Bool
  | [] => .ok false
  | p :: rest =>
    match match_batch p [path] with
    | .error e => .error e
    | .ok results =>
      if results.head? = some true then .ok true
      else matches_any path rest

/-- HashSet::insert on the list model of a set of paths. -/
def insertSet (acc : List (List Byte)) (f : List Byte) : List (List Byte) :=
  if f ∈ acc then acc else f :: acc

/-- The per-pattern file loop of run in main.rs: collect into the
accumulator every changed file matched by the pattern. -/
def collectMatches (pat : List Byte) :
    List (List Byte) → List (List Byte) → Except String (List (List Byte))
  | [], acc => .ok acc
  | f :: rest, acc =>
    match matches_any f [pat] with
    | .error e => .error e
    | .ok b =>
      if b then collectMatches pat rest (insertSet acc f)
      else collectMatches pat rest acc

/-- The pattern loop of run in main.rs: patterns beginning with the
negation marker feed the negative set with the marker stripped, all others
feed the positive set. -/
def buildSets (files : List (List Byte)) :
    List (List Byte) → List (List Byte) → List (List Byte) →
    Except String (List (List Byte) × List (List Byte))
  | [], pos, neg => .ok (pos, neg)
  | p :: rest, pos, neg =>
    match p with
    | 33 :: negated =>
      match collectMatches negated files neg with
      | .error e => .error e
      | .ok neg2 => buildSets files rest pos neg2
    | _ =>
      match collectMatches p files pos with
      | .error e => .error e
      | .ok pos2 => buildSets files rest pos2 neg

/-- The composer of run in main.rs: build the positive and negative match
sets and report whether some positive match survives the negatives. -/
def compose (patterns files : List (List Byte)) : Except String Bool :=
  match buildSets files patterns [] [] with
  | .error e => .error e
  | .ok (pos, neg) => .ok (!pos.isEmpty && !(pos.all fun f => neg.contains f))

/-- Specification-side helper: does the first list begin the second,
byte for byte. -/
def begins : List Byte → List Byte → Bool
  | [], _ => true
  | _ :: _, [] => false
  | a :: as, b2 :: bs2 => a == b2 && begins as bs2

/-- Specification-side helper: a pattern made only of literal bytes, with
no wildcard, question mark, character class or escape. -/
def literalPat (p : List Byte) : Prop :=
  ∀ b ∈ p, b ≠ bStar ∧ b ≠ bQuest ∧ b ≠ bLbrack ∧ b ≠ bBackslash

/-- Decidable equality of result values, used to evaluate the embedding on
concrete inputs. -/
instance instDecEqExcept {α β : Type} [DecidableEq α] [DecidableEq β] :
    DecidableEq (Except α β) := fun a b =>
  match a, b with
  | .ok x, .ok y =>
    if h : x = y then .isTrue (by rw [h])
    else .isFalse (by intro hc; cases hc; exact h rfl)
  | .error x, .error y =>
    if h : x = y then .isTrue (by rw [h])
    else .isFalse (by intro hc; cases hc; exact h rfl)
  | .ok _, .error _ => .isFalse (by intro hc; cases hc)
  | .error _, .ok _ => .isFalse (by intro hc; cases hc)

/-- Specification-side helper: the file is matched by some positive
pattern of the list. -/
def posMatches (P : List (List Byte)) (f : List Byte) : Prop :=
  ∃ p ∈ P, p.head? ≠ some bBang ∧ match_batch p [f] = .ok [true]

/-- Specification-side helper: the file is matched by some negative
pattern of the list, with the leading negation marker stripped. -/
def negMatches (P : List (List Byte)) (f : List Byte) : Prop :=
  ∃ p ∈ P, ∃ pt, p = bBang :: pt ∧ match_batch pt [f] = .ok [true]

/-- Verdict of the machine on a pattern of literal bytes: consume the
pattern byte by byte against the candidate from the given position, then
apply the directory-prefix residual rule. -/
def litMatch : List Byte → List Byte → Nat → Bool
  | [], c, pos =>
    match c.get? pos with
    | none => true
    | some b => b == bSlash
  | b :: qs, c, pos =>
    if c.get? pos = some b then litMatch qs c (pos + 1) else false

/-- The directory-prefix residual rule on a candidate suffix: empty or
beginning with a slash. -/
def dirOk (r : List Byte) : Bool :=
  match r with
  | [] => true
  | b :: _ => b == bSlash

/-- Per-pattern call of the composer loop: negative patterns are evaluated
with the marker stripped, positives as given. -/
def patApply (p f : List Byte) : Except String Bool :=
  match p with
  | 33 :: pt => matches_any f [pt]
  | _ => matches_any f [p]

end GitDiffFilter

namespace GitDiffFilter

/-! ### General lemmas -/

/-- The singleton matchLoop on an exhausted pattern yields the literal
residual verdict. -/
theorem matchLoop_nil_single (c : List Byte) :
    matchLoop 1 [] .Literal 0 [⟨0, c, 0⟩] [false] =
      .ok [decide (c = [] ∨ c.head? = some bSlash)] := by
  cases c <;>
    simp [matchLoop, finishActive, exhaustVerdict, ActiveString.currentByte, bSlash]
  case cons h t =>
    by_cases hb : h = 47 <;> simp [hb]

/-- The empty pattern matches exactly the empty path and the paths that
begin with a slash. -/
theorem match_batch_nil (c : List Byte) :
    match_batch [] [c] = .ok [decide (c = [] ∨ c.head? = some bSlash)] := by
  simpa [match_batch, stripLeadSlash, stripTrailSlash, bSlash, List.enum] using
    matchLoop_nil_single c

/-- consume_byte does not change the length of the result vector. -/
theorem consumeByteGo_res_length (pred : Option Byte → Bool) :
    ∀ rem i active results,
      ((consumeByteGo pred rem i active results).2).length = results.length := by
  intro rem
  induction rem with
  | zero => intro i active results; rfl
  | succ n ih =>
    intro i active results
    rw [consumeByteGo]
    cases hg : active.get? i with
    | none => rfl
    | some s =>
      by_cases hp : pred s.currentByte <;> simp [hp, ih]

/-- The pattern-exhausted block does not change the length of the result
vector. -/
theorem finishActive_length (st : PatternState) :
    ∀ active results, (finishActive st active results).length = results.length := by
  intro active
  induction active with
  | nil => intro results; rfl
  | cons a rest ih => intro results; rw [finishActive]; simp [ih]

/-- The wildcard sweep does not change the length of the result vector. -/
theorem mwsGo_res_length (patSeg : List Byte) (g : Bool) (rc : Nat) :
    ∀ rem i nextIdx active results next act res,
      mwsGo patSeg g rc rem i nextIdx active results = .ok (next, act, res) →
      res.length = results.length := by
  intro rem
  induction rem with
  | zero =>
    intro i nextIdx active results next act res h
    rw [mwsGo] at h
    cases h; rfl
  | succ n ih =>
    intro i nextIdx active results next act res h
    rw [mwsGo] at h
    cases hg : active.get? i with
    | none => rw [hg] at h; cases h; rfl
    | some s =>
      rw [hg] at h
      dsimp only at h
      cases ht : tryFrom patSeg g rc s.bytes s.position
          (s.bytes.length + 1 - s.position) s.position false with
      | error e => rw [ht] at h; cases h
      | ok o =>
        rw [ht] at h
        cases o with
        | none =>
          have := ih _ _ _ _ _ _ _ h
          simpa using this
        | some v =>
          obtain ⟨newPos, pstop⟩ := v
          exact ih _ _ _ _ _ _ _ h

/-- match_wildcard_segment does not change the length of the result
vector. -/
theorem mws_res_length (patSeg : List Byte) (g : Bool) (rc : Nat)
    (active : List ActiveString) (results : List Bool)
    (next : List Byte) (act : List ActiveString) (res : List Bool)
    (h : matchWildcardSegment patSeg g rc active results = .ok (next, act, res)) :
    res.length = results.length := by
  cases patSeg with
  | nil => rw [matchWildcardSegment] at h; cases h; rfl
  | cons c rest =>
    rw [matchWildcardSegment] at h
    cases hm : mwsGo (c :: rest) g rc active.length 0 none active results with
    | error e => rw [hm] at h; cases h
    | ok t =>
      rw [hm] at h
      obtain ⟨n2, a2, r2⟩ := t
      cases h
      exact mwsGo_res_length _ _ _ _ _ _ _ _ _ _ _ hm

/-- One loop iteration does not change the length of the result vector. -/
theorem loopStep_res_length (c : Byte) (rest : List Byte) (st : PatternState)
    (qc : Nat) (active : List ActiveString) (results : List Bool)
    (next : List Byte) (st2 : PatternState) (qc2 : Nat)
    (act : List ActiveString) (res : List Bool)
    (h : loopStep c rest st qc active results = .ok (next, st2, qc2, act, res)) :
    res.length = results.length := by
  rw [loopStep.eq_def] at h
  split_ifs at h <;> cases st <;> dsimp only at h
  all_goals repeat split at h
  all_goals try (cases h)
  all_goals try rfl
  all_goals
    first
    | exact consumeByteGo_res_length _ _ _ _ _
    | (rename_i heq; exact mws_res_length _ _ _ _ _ _ _ _ heq)

/-- The main loop does not change the length of the result vector. -/
theorem matchLoop_length :
    ∀ fuel p st qc active results rs,
      matchLoop fuel p st qc active results = .ok rs →
      rs.length = results.length := by
  intro fuel
  induction fuel with
  | zero => intro p st qc active results rs h; cases h
  | succ n ih =>
    intro p st qc active results rs h
    match p, active with
    | [], active =>
      rw [matchLoop] at h
      cases h
      exact finishActive_length _ _ _
    | c :: rest, [] =>
      rw [matchLoop] at h
      cases h
      rfl
    | c :: rest, a :: as =>
      rw [matchLoop] at h
      cases hs : loopStep c rest st qc (a :: as) results with
      | error e => rw [hs] at h; cases h
      | ok t =>
        obtain ⟨next, st2, qc2, act, res⟩ := t
        rw [hs] at h
        exact (ih _ _ _ _ _ _ h).trans
          (loopStep_res_length _ _ _ _ _ _ _ _ _ _ _ hs)

/-- The result vector of match_batch has one entry per candidate. -/
theorem match_batch_length (p : List Byte) (cs : List (List Byte))
    (rs : List Bool) (h : match_batch p cs = .ok rs) :
    rs.length = cs.length := by
  rw [match_batch] at h
  by_cases hc : cs.isEmpty
  · rw [if_pos hc] at h
    cases h
    simp [List.isEmpty_iff.mp hc]
  · rw [if_neg hc] at h
    have := matchLoop_length _ _ _ _ _ _ _ h
    simpa using this

/-- A singleton batch returns a one-element vector. -/
theorem match_batch_single_shape (p f : List Byte) (r : List Bool)
    (h : match_batch p [f] = .ok r) : ∃ v, r = [v] := by
  have := match_batch_length p [f] r h
  match r, this with
  | [v], _ => exact ⟨v, rfl⟩

/-- matches_any on a single pattern mirrors the singleton batch. -/
theorem matches_any_one_ok (p f : List Byte) (v : Bool)
    (h : match_batch p [f] = .ok [v]) : matches_any f [p] = .ok v := by
  rw [matches_any, h]
  cases v <;> simp [matches_any]

/-- matches_any on a single pattern propagates the batch error. -/
theorem matches_any_one_err (p f : List Byte) (e : String)
    (h : match_batch p [f] = .error e) : matches_any f [p] = .error e := by
  rw [matches_any, h]

/-- matches_any answers true on a single pattern exactly when the
singleton batch answers true. -/
theorem matches_any_one_iff (p f : List Byte) :
    matches_any f [p] = .ok true ↔ match_batch p [f] = .ok [true] := by
  constructor
  · intro h
    rw [matches_any] at h
    cases hm : match_batch p [f] with
    | error e => rw [hm] at h; cases h
    | ok r =>
      rw [hm] at h
      obtain ⟨v, rfl⟩ := match_batch_single_shape p f r hm
      by_cases hv : v = true
      · rw [hv]
      · simp [matches_any, hv] at h
  · intro h
    exact matches_any_one_ok p f true h

/-- matches_any on a single pattern yields a value exactly when the
singleton batch does. -/
theorem matches_any_one_total (p f : List Byte) :
    (∃ b, matches_any f [p] = .ok b) ↔ (∃ r, match_batch p [f] = .ok r) := by
  constructor
  · rintro ⟨b, hb⟩
    rw [matches_any] at hb
    cases hm : match_batch p [f] with
    | error e => rw [hm] at hb; cases hb
    | ok r => exact ⟨r, rfl⟩
  · rintro ⟨r, hr⟩
    obtain ⟨v, rfl⟩ := match_batch_single_shape p f r hr
    exact ⟨v, matches_any_one_ok p f v hr⟩

/-- Membership in the set-model insert. -/
theorem insertSet_mem (acc : List (List Byte)) (f x : List Byte) :
    x ∈ insertSet acc f ↔ x = f ∨ x ∈ acc := by
  unfold insertSet
  split_ifs with hf
  · constructor
    · intro hx; exact Or.inr hx
    · rintro (rfl | hx)
      · exact hf
      · exact hx
  · simp [List.mem_cons]

/-- Membership characterization of the per-pattern file loop. -/
theorem collectMatches_ok_mem (pat : List Byte) :
    ∀ files acc out, collectMatches pat files acc = .ok out →
      ∀ x, (x ∈ out ↔ x ∈ acc ∨ (x ∈ files ∧ matches_any x [pat] = .ok true)) := by
  intro files
  induction files with
  | nil =>
    intro acc out h x
    rw [collectMatches] at h
    cases h
    simp
  | cons f rest ih =>
    intro acc out h x
    rw [collectMatches] at h
    cases hm : matches_any f [pat] with
    | error e => rw [hm] at h; cases h
    | ok b =>
      rw [hm] at h
      dsimp only at h
      by_cases hb : b = true
      · subst hb
        rw [if_pos rfl] at h
        rw [ih _ _ h x, insertSet_mem, List.mem_cons]
        constructor
        · rintro ((rfl | hx) | ⟨hxr, hxm⟩)
          · exact Or.inr ⟨Or.inl rfl, hm⟩
          · exact Or.inl hx
          · exact Or.inr ⟨Or.inr hxr, hxm⟩
        · rintro (hx | ⟨(rfl | hxr), hxm⟩)
          · exact Or.inl (Or.inr hx)
          · exact Or.inl (Or.inl rfl)
          · exact Or.inr ⟨hxr, hxm⟩
      · have hb2 : b = false := by simpa using hb
        subst hb2
        rw [if_neg (by simp)] at h
        rw [ih _ _ h x, List.mem_cons]
        constructor
        · rintro (hx | ⟨hxr, hxm⟩)
          · exact Or.inl hx
          · exact Or.inr ⟨Or.inr hxr, hxm⟩
        · rintro (hx | ⟨(rfl | hxr), hxm⟩)
          · exact Or.inl hx
          · rw [hm] at hxm
            cases hxm
          · exact Or.inr ⟨hxr, hxm⟩

/-- The per-pattern file loop succeeds only when every file evaluates
without a pattern error. -/
theorem collectMatches_ok_total (pat : List Byte) :
    ∀ files acc out, collectMatches pat files acc = .ok out →
      ∀ f ∈ files, ∃ b, matches_any f [pat] = .ok b := by
  intro files
  induction files with
  | nil =>
    intro acc out _ f hf
    cases hf
  | cons g rest ih =>
    intro acc out h f hf
    rw [collectMatches] at h
    cases hm : matches_any g [pat] with
    | error e => rw [hm] at h; cases h
    | ok b =>
      rw [hm] at h
      dsimp only at h
      rcases List.mem_cons.mp hf with rfl | hf2
      · exact ⟨b, hm⟩
      · by_cases hb : b = true
        · subst hb
          rw [if_pos rfl] at h
          exact ih _ _ h f hf2
        · have hb2 : b = false := by simpa using hb
          subst hb2
          rw [if_neg (by simp)] at h
          exact ih _ _ h f hf2

/-- The per-pattern file loop succeeds when every file evaluates without a
pattern error. -/
theorem collectMatches_total_ok (pat : List Byte) :
    ∀ files, (∀ f ∈ files, ∃ b, matches_any f [pat] = .ok b) →
      ∀ acc, ∃ out, collectMatches pat files acc = .ok out := by
  intro files
  induction files with
  | nil =>
    intro _ acc
    exact ⟨acc, rfl⟩
  | cons g rest ih =>
    intro htot acc
    obtain ⟨b, hb⟩ := htot g (List.mem_cons_self g rest)
    have hrest : ∀ f ∈ rest, ∃ b2, matches_any f [pat] = .ok b2 :=
      fun f hf => htot f (List.mem_cons_of_mem g hf)
    rw [collectMatches]
    rw [hb]
    dsimp only
    by_cases hbt : b = true
    · subst hbt
      rw [if_pos rfl]
      exact ih hrest (insertSet acc g)
    · have hb2 : b = false := by simpa using hbt
      subst hb2
      rw [if_neg (by simp)]
      exact ih hrest acc

/-- Unfolding of the pattern loop at a negative pattern. -/
theorem buildSets_cons_neg (files : List (List Byte)) (pt : List Byte)
    (rest : List (List Byte)) (pos neg : List (List Byte)) :
    buildSets files ((bBang :: pt) :: rest) pos neg =
      match collectMatches pt files neg with
      | .error e => .error e
      | .ok neg2 => buildSets files rest pos neg2 := by
  show buildSets files ((33 :: pt) :: rest) pos neg = _
  rw [buildSets]

/-- Unfolding of the pattern loop at a positive pattern. -/
theorem buildSets_cons_pos (files : List (List Byte)) (p : List Byte)
    (rest : List (List Byte)) (pos neg : List (List Byte))
    (hp : ∀ pt, p ≠ bBang :: pt) :
    buildSets files (p :: rest) pos neg =
      match collectMatches p files pos with
      | .error e => .error e
      | .ok pos2 => buildSets files rest pos2 neg := by
  rw [buildSets]
  exact fun pt hpt => hp pt hpt

/-- Membership characterization of the pattern loop of the composer. -/
theorem buildSets_ok_mem (files : List (List Byte)) :
    ∀ P pos neg po ne, buildSets files P pos neg = .ok (po, ne) →
      (∀ x, x ∈ po ↔ x ∈ pos ∨ (x ∈ files ∧
        ∃ p ∈ P, p.head? ≠ some bBang ∧ matches_any x [p] = .ok true)) ∧
      (∀ x, x ∈ ne ↔ x ∈ neg ∨ (x ∈ files ∧
        ∃ p ∈ P, ∃ pt, p = bBang :: pt ∧ matches_any x [pt] = .ok true)) := by
  intro P
  induction P with
  | nil =>
    intro pos neg po ne h
    rw [buildSets] at h
    cases h
    simp
  | cons p rest ih =>
    intro pos neg po ne h
    by_cases hneg : ∃ pt, p = bBang :: pt
    · obtain ⟨pt, rfl⟩ := hneg
      rw [buildSets_cons_neg] at h
      cases hcm : collectMatches pt files neg with
      | error e => rw [hcm] at h; cases h
      | ok neg2 =>
        rw [hcm] at h
        dsimp only at h
        obtain ⟨hpo, hne⟩ := ih _ _ _ _ h
        have hcmem := collectMatches_ok_mem pt files neg neg2 hcm
        constructor
        · intro x
          rw [hpo x]
          constructor
          · rintro (hx | ⟨hxf, q, hq, hqh, hqm⟩)
            · exact Or.inl hx
            · exact Or.inr ⟨hxf, q, List.mem_cons_of_mem _ hq, hqh, hqm⟩
          · rintro (hx | ⟨hxf, q, hq, hqh, hqm⟩)
            · exact Or.inl hx
            · rcases List.mem_cons.mp hq with rfl | hq2
              · exact absurd rfl hqh
              · exact Or.inr ⟨hxf, q, hq2, hqh, hqm⟩
        · intro x
          rw [hne x, hcmem x]
          constructor
          · rintro ((hx | ⟨hxf, hxm⟩) | ⟨hxf, q, hq, qt, hqe, hqm⟩)
            · exact Or.inl hx
            · exact Or.inr ⟨hxf, bBang :: pt, List.mem_cons_self _ _, pt, rfl, hxm⟩
            · exact Or.inr ⟨hxf, q, List.mem_cons_of_mem _ hq, qt, hqe, hqm⟩
          · rintro (hx | ⟨hxf, q, hq, qt, hqe, hqm⟩)
            · exact Or.inl (Or.inl hx)
            · rcases List.mem_cons.mp hq with rfl | hq2
              · cases hqe
                exact Or.inl (Or.inr ⟨hxf, hqm⟩)
              · exact Or.inr ⟨hxf, q, hq2, qt, hqe, hqm⟩
    · have hnotex : ∀ pt, p ≠ bBang :: pt := fun pt hpt => hneg ⟨pt, hpt⟩
      have hp : p.head? ≠ some bBang := by
        cases p with
        | nil => simp
        | cons hd tl =>
          intro hh
          simp only [List.head?, Option.some.injEq] at hh
          exact hnotex tl (by rw [hh])
      rw [buildSets_cons_pos files p rest pos neg hnotex] at h
      cases hcm : collectMatches p files pos with
      | error e => rw [hcm] at h; cases h
      | ok pos2 =>
        rw [hcm] at h
        dsimp only at h
        obtain ⟨hpo, hne⟩ := ih _ _ _ _ h
        have hcmem := collectMatches_ok_mem p files pos pos2 hcm
        constructor
        · intro x
          rw [hpo x, hcmem x]
          constructor
          · rintro ((hx | ⟨hxf, hxm⟩) | ⟨hxf, q, hq, hqh, hqm⟩)
            · exact Or.inl hx
            · exact Or.inr ⟨hxf, p, List.mem_cons_self _ _, hp, hxm⟩
            · exact Or.inr ⟨hxf, q, List.mem_cons_of_mem _ hq, hqh, hqm⟩
          · rintro (hx | ⟨hxf, q, hq, hqh, hqm⟩)
            · exact Or.inl (Or.inl hx)
            · rcases List.mem_cons.mp hq with rfl | hq2
              · exact Or.inl (Or.inr ⟨hxf, hqm⟩)
              · exact Or.inr ⟨hxf, q, hq2, hqh, hqm⟩
        · intro x
          rw [hne x]
          constructor
          · rintro (hx | ⟨hxf, q, hq, qt, hqe, hqm⟩)
            · exact Or.inl hx
            · exact Or.inr ⟨hxf, q, List.mem_cons_of_mem _ hq, qt, hqe, hqm⟩
          · rintro (hx | ⟨hxf, q, hq, qt, hqe, hqm⟩)
            · exact Or.inl hx
            · rcases List.mem_cons.mp hq with rfl | hq2
              · exact absurd hqe (hnotex qt)
              · exact Or.inr ⟨hxf, q, hq2, qt, hqe, hqm⟩

/-- The pattern loop succeeds only when every pattern evaluates on every
file without a pattern error. -/
theorem buildSets_ok_total (files : List (List Byte)) :
    ∀ P pos neg po ne, buildSets files P pos neg = .ok (po, ne) →
      ∀ p ∈ P, ∀ f ∈ files, ∃ b, patApply p f = .ok b := by
  intro P
  induction P with
  | nil =>
    intro pos neg po ne _ p hp
    cases hp
  | cons q rest ih =>
    intro pos neg po ne h p hp f hf
    by_cases hneg : ∃ pt, q = bBang :: pt
    · obtain ⟨pt, rfl⟩ := hneg
      rw [buildSets_cons_neg] at h
      cases hcm : collectMatches pt files neg with
      | error e => rw [hcm] at h; cases h
      | ok neg2 =>
        rw [hcm] at h
        dsimp only at h
        rcases List.mem_cons.mp hp with rfl | hp2
        · have := collectMatches_ok_total pt files neg neg2 hcm f hf
          simpa [patApply] using this
        · exact ih _ _ _ _ h p hp2 f hf
    · have hnotex : ∀ pt, q ≠ bBang :: pt := fun pt hpt => hneg ⟨pt, hpt⟩
      rw [buildSets_cons_pos files q rest pos neg hnotex] at h
      cases hcm : collectMatches q files pos with
      | error e => rw [hcm] at h; cases h
      | ok pos2 =>
        rw [hcm] at h
        dsimp only at h
        rcases List.mem_cons.mp hp with rfl | hp2
        · have := collectMatches_ok_total p files pos pos2 hcm f hf
          rw [patApply.eq_def]
          split
          · rename_i pt2
            exact absurd rfl (hnotex pt2)
          · exact this
        · exact ih _ _ _ _ h p hp2 f hf

/-- The pattern loop succeeds when every pattern evaluates on every file
without a pattern error. -/
theorem buildSets_total_ok (files : List (List Byte)) :
    ∀ P, (∀ p ∈ P, ∀ f ∈ files, ∃ b, patApply p f = .ok b) →
      ∀ pos neg, ∃ po ne, buildSets files P pos neg = .ok (po, ne) := by
  intro P
  induction P with
  | nil =>
    intro _ pos neg
    exact ⟨pos, neg, rfl⟩
  | cons q rest ih =>
    intro htot pos neg
    have hq := htot q (List.mem_cons_self q rest)
    have hrest : ∀ p ∈ rest, ∀ f ∈ files, ∃ b, patApply p f = .ok b :=
      fun p hp f hf => htot p (List.mem_cons_of_mem q hp) f hf
    by_cases hneg : ∃ pt, q = bBang :: pt
    · obtain ⟨pt, rfl⟩ := hneg
      have hq2 : ∀ f ∈ files, ∃ b, matches_any f [pt] = .ok b := by
        intro f hf
        simpa [patApply] using hq f hf
      obtain ⟨neg2, hneg2⟩ := collectMatches_total_ok pt files hq2 neg
      obtain ⟨po, ne, hpn⟩ := ih hrest pos neg2
      refine ⟨po, ne, ?_⟩
      rw [buildSets_cons_neg, hneg2]
      exact hpn
    · have hnotex : ∀ pt, q ≠ bBang :: pt := fun pt hpt => hneg ⟨pt, hpt⟩
      have hq2 : ∀ f ∈ files, ∃ b, matches_any f [q] = .ok b := by
        intro f hf
        have := hq f hf
        rw [patApply.eq_def] at this
        revert this
        split
        · rename_i pt2
          exact absurd rfl (hnotex pt2)
        · exact id
      obtain ⟨pos2, hpos2⟩ := collectMatches_total_ok q files hq2 pos
      obtain ⟨po, ne, hpn⟩ := ih hrest pos2 neg
      refine ⟨po, ne, ?_⟩
      rw [buildSets_cons_pos files q rest pos neg hnotex, hpos2]
      exact hpn

/-! ### Claims C9, C10 and the concrete counterexamples -/

/-- C9: match_batch with the empty pattern, and with the patterns made of
one and two slashes (which normalise to the empty pattern), answers true
for a candidate exactly when the candidate is empty or begins with a
slash. -/
theorem c9_empty_pattern (c : List Byte) :
    match_batch [] [c] = .ok [decide (c = [] ∨ c.head? = some bSlash)] ∧
    match_batch [bSlash] [c] = .ok [decide (c = [] ∨ c.head? = some bSlash)] ∧
    match_batch [bSlash, bSlash] [c] = .ok [decide (c = [] ∨ c.head? = some bSlash)] := by
  refine ⟨match_batch_nil c, ?_, ?_⟩ <;>
    simpa [match_batch, stripLeadSlash, stripTrailSlash, bSlash, List.enum] using
      matchLoop_nil_single c

/-- C10: when a pattern of the list already matches the path, matches_any
answers true regardless of what follows in the list; later patterns,
including invalid ones, are never evaluated. -/
theorem c10_short_circuit (path : List Byte) (ps qs : List (List Byte))
    (h : matches_any path ps = .ok true) :
    matches_any path (ps ++ qs) = .ok true := by
  induction ps with
  | nil => simp [matches_any] at h
  | cons p rest ih =>
    simp only [matches_any, List.cons_append] at h ⊢
    cases hm : match_batch p [path] with
    | error e =>
      rw [hm] at h
      exact absurd h (by simp)
    | ok r =>
      rw [hm] at h
      change (if r.head? = some true then Except.ok true
        else matches_any path rest) = Except.ok true at h
      change (if r.head? = some true then Except.ok true
        else matches_any path (rest ++ qs)) = Except.ok true
      by_cases hr : r.head? = some true
      · simp [hr]
      · rw [if_neg hr] at h
        rw [if_neg hr]
        exact ih h

/-- Witness for C10: the text pattern list matches a.txt on its first
pattern, so appending the invalid range pattern changes nothing, while the
invalid pattern alone reports the invalid range. -/
theorem c10_witness :
    matches_any (bs "a.txt") ([bs "*.txt"] ++ [bs "[z-a]"]) = .ok true ∧
    matches_any (bs "a.txt") [bs "[z-a]"] = .error (rangeErr 122 97) :=
  ⟨c10_short_circuit (bs "a.txt") [bs "*.txt"] [bs "[z-a]"] (by decide), by decide⟩

/-- Counterexample for C2: the pattern x[z-a] contains an invalid range,
yet on the non-empty candidate list with the single candidate y the batch
returns a result vector, because the candidate fails on the first literal
byte and the active set empties before the class is parsed. -/
theorem c2_counterexample :
    match_batch (bs "x[z-a]") [bs "y"] = .ok [false] ∧ [bs "y"] ≠ [] := by decide

/-- Counterexample for C5: with the pattern star and the candidate
foo/bar, the pattern star-slash matches the candidate although the right
hand side of the claimed equivalence is false: the candidate is non-empty,
does not begin with star-slash and is not equal to star. -/
theorem c5_counterexample :
    match_batch (bs "*" ++ [bSlash]) [bs "foo/bar"] = .ok [true] ∧
    match_batch (bs "*") [bs "foo/bar"] = .ok [true] ∧
    begins (bs "*" ++ [bSlash]) (bs "foo/bar") = false ∧
    bs "foo/bar" ≠ [] ∧ bs "foo/bar" ≠ bs "*" := by decide

/-- Counterexample for C7: the suffix question-mark slash x does not begin
with a slash, yet the globstar form matches a/yx while the single
wildcard form does not: the question mark keeps the globstar state alive
until the slash confirms a globstar, whereas after a single star the slash
resolves the wildcard. -/
theorem c7_counterexample :
    match_batch (bs "**?/x") [bs "a/yx"] = .ok [true] ∧
    match_batch (bs "*?/x") [bs "a/yx"] = .ok [false] ∧
    (bs "?/x").head? ≠ some bSlash := by decide

/-- Counterexample for C8: on the single file slash-x, which the literal
empty pattern matches, the composer with the single pattern bang answers
false, while a composer treating bang as an empty positive pattern would
have a non-empty positive set and an empty negative set and would answer
true. -/
theorem c8_counterexample :
    compose [[bBang]] [[bSlash, 120]] = .ok false ∧
    match_batch [] [[bSlash, 120]] = .ok [true] := by decide


/-- Boolean equality from the equivalence of the truth of two booleans. -/
theorem bool_eq_of_iff {a b : Bool} (h : a = true ↔ b = true) : a = b := by
  cases a <;> cases b <;> simp_all

/-- List.contains agrees with membership on byte-list lists. -/
theorem contains_iff_mem (l : List (List Byte)) (x : List Byte) :
    l.contains x = true ↔ x ∈ l :=
  List.elem_iff

/-- Decomposition of a successful composer run. -/
theorem compose_ok_sets (P F : List (List Byte)) (b : Bool)
    (h : compose P F = .ok b) :
    ∃ po ne, buildSets F P [] [] = .ok (po, ne) ∧
      b = (!po.isEmpty && !(po.all fun f => ne.contains f)) := by
  rw [compose] at h
  cases hb : buildSets F P [] [] with
  | error e => rw [hb] at h; cases h
  | ok t =>
    obtain ⟨po, ne⟩ := t
    rw [hb] at h
    dsimp only at h
    cases h
    exact ⟨po, ne, rfl, rfl⟩

/-- The positive and negative sets of a composer run contain exactly the
files matched by some positive, respectively some stripped negative,
pattern. -/
theorem buildSets_mem_matches (P F : List (List Byte))
    (po ne : List (List Byte)) (h : buildSets F P [] [] = .ok (po, ne)) :
    (∀ x, x ∈ po ↔ x ∈ F ∧ posMatches P x) ∧
    (∀ x, x ∈ ne ↔ x ∈ F ∧ negMatches P x) := by
  obtain ⟨hpo, hne⟩ := buildSets_ok_mem F P [] [] po ne h
  constructor
  · intro x
    rw [hpo x]
    simp only [List.not_mem_nil, false_or]
    unfold posMatches
    constructor
    · rintro ⟨hxf, p, hp, hph, hpm⟩
      exact ⟨hxf, p, hp, hph, (matches_any_one_iff p x).mp hpm⟩
    · rintro ⟨hxf, p, hp, hph, hpm⟩
      exact ⟨hxf, p, hp, hph, (matches_any_one_iff p x).mpr hpm⟩
  · intro x
    rw [hne x]
    simp only [List.not_mem_nil, false_or]
    unfold negMatches
    constructor
    · rintro ⟨hxf, p, hp, pt, hpe, hpm⟩
      exact ⟨hxf, p, hp, pt, hpe, (matches_any_one_iff pt x).mp hpm⟩
    · rintro ⟨hxf, p, hp, pt, hpe, hpm⟩
      exact ⟨hxf, p, hp, pt, hpe, (matches_any_one_iff pt x).mpr hpm⟩

/-- The boolean of a successful composer run is the survival formula. -/
theorem compose_ok_val (P F : List (List Byte)) (b : Bool)
    (h : compose P F = .ok b) :
    (b = true ↔ ∃ f ∈ F, posMatches P f ∧ ¬ negMatches P f) := by
  obtain ⟨po, ne, hb, rfl⟩ := compose_ok_sets P F b h
  obtain ⟨hpo, hne⟩ := buildSets_mem_matches P F po ne hb
  simp only [Bool.and_eq_true, Bool.not_eq_true']
  constructor
  · rintro ⟨-, hall⟩
    obtain ⟨x, hx1, hx2⟩ := List.all_eq_false.mp hall
    obtain ⟨hxf, hxp⟩ := (hpo x).mp hx1
    refine ⟨x, hxf, hxp, fun hneg => hx2 ?_⟩
    exact (contains_iff_mem ne x).mpr ((hne x).mpr ⟨hxf, hneg⟩)
  · rintro ⟨f, hf, hp, hn⟩
    have hfpo : f ∈ po := (hpo f).mpr ⟨hf, hp⟩
    have hfne : f ∉ ne := fun hc => hn (((hne f).mp hc).2)
    constructor
    · cases hpo2 : po with
      | nil => rw [hpo2] at hfpo; cases hfpo
      | cons a po2 => rfl
    · rw [List.all_eq_false]
      exact ⟨f, hfpo, fun hc => hfne ((contains_iff_mem ne f).mp hc)⟩

/-- Membership in the positive matches transfers along a permutation of
the pattern list. -/
theorem posMatches_perm {P P2 : List (List Byte)} (hperm : P.Perm P2)
    (f : List Byte) : posMatches P f ↔ posMatches P2 f := by
  unfold posMatches
  constructor <;> rintro ⟨p, hp, hph, hpm⟩
  · exact ⟨p, hperm.mem_iff.mp hp, hph, hpm⟩
  · exact ⟨p, hperm.mem_iff.mpr hp, hph, hpm⟩

/-- Membership in the negative matches transfers along a permutation of
the pattern list. -/
theorem negMatches_perm {P P2 : List (List Byte)} (hperm : P.Perm P2)
    (f : List Byte) : negMatches P f ↔ negMatches P2 f := by
  unfold negMatches
  constructor <;> rintro ⟨p, hp, pt, hpe, hpm⟩
  · exact ⟨p, hperm.mem_iff.mp hp, pt, hpe, hpm⟩
  · exact ⟨p, hperm.mem_iff.mpr hp, pt, hpe, hpm⟩

/-! ### Claims C1, C6 and C8 -/

/-- C1: whenever the composer succeeds, its boolean equals the set
formula: the set of files matched by some positive pattern is non-empty
and is not contained in the set of files matched by some stripped
negative pattern.  An empty file list or an all-negative pattern list
makes the positive set empty, hence the boolean false. -/
theorem c1_composer_formula (P F : List (List Byte)) (b : Bool)
    (h : compose P F = .ok b) :
    b = true ↔
      ((∃ f ∈ F, posMatches P f) ∧ ¬ ∀ f ∈ F, posMatches P f → negMatches P f) := by
  rw [compose_ok_val P F b h]
  constructor
  · rintro ⟨f, hf, hpos, hneg⟩
    exact ⟨⟨f, hf, hpos⟩, fun hall => hneg (hall f hf hpos)⟩
  · rintro ⟨⟨f0, hf0, hpos0⟩, hnall⟩
    push_neg at hnall
    obtain ⟨f, hf, hpos, hneg⟩ := hnall
    exact ⟨f, hf, hpos, hneg⟩

/-- Witness for C1 at a concrete run: one positive text pattern over two
files. -/
theorem c1_witness :
    true = true ↔
      ((∃ f ∈ [bs "a.txt", bs "b.rs"], posMatches [bs "*.txt"] f) ∧
        ¬ ∀ f ∈ [bs "a.txt", bs "b.rs"],
            posMatches [bs "*.txt"] f → negMatches [bs "*.txt"] f) :=
  c1_composer_formula [bs "*.txt"] [bs "a.txt", bs "b.rs"] true (by decide)

/-- C6: a successful composer run is invariant under permutation of the
pattern list. -/
theorem c6_order_independence (P P2 F : List (List Byte)) (b : Bool)
    (hperm : P.Perm P2) (h : compose P F = .ok b) :
    compose P2 F = .ok b := by
  obtain ⟨po, ne, hb, hval⟩ := compose_ok_sets P F b h
  have htot := buildSets_ok_total F P [] [] po ne hb
  have htot2 : ∀ p ∈ P2, ∀ f ∈ F, ∃ bb, patApply p f = .ok bb :=
    fun p hp => htot p (hperm.mem_iff.mpr hp)
  obtain ⟨po2, ne2, hb2⟩ := buildSets_total_ok F P2 htot2 [] []
  have hcomp2 : compose P2 F = .ok (!po2.isEmpty && !(po2.all fun f => ne2.contains f)) := by
    rw [compose, hb2]
  have hv1 := compose_ok_val P F b h
  have hv2 := compose_ok_val P2 F _ hcomp2
  have hiff : (∃ f ∈ F, posMatches P f ∧ ¬ negMatches P f) ↔
      (∃ f ∈ F, posMatches P2 f ∧ ¬ negMatches P2 f) := by
    constructor <;> rintro ⟨f, hf, hp, hn⟩
    · exact ⟨f, hf, (posMatches_perm hperm f).mp hp,
        fun hc => hn ((negMatches_perm hperm f).mpr hc)⟩
    · exact ⟨f, hf, (posMatches_perm hperm f).mpr hp,
        fun hc => hn ((negMatches_perm hperm f).mp hc)⟩
  have hbeq : b = (!po2.isEmpty && !(po2.all fun f => ne2.contains f)) :=
    bool_eq_of_iff (hv1.trans (hiff.trans hv2.symm))
  rw [hcomp2, hbeq]

/-- Witness for C6: swapping a positive and a negative pattern leaves the
result unchanged. -/
theorem c6_witness :
    compose [bs "!*.md", bs "src/**"] [bs "src/main.rs", bs "src/README.md"] = .ok true :=
  c6_order_independence [bs "src/**", bs "!*.md"] [bs "!*.md", bs "src/**"]
    [bs "src/main.rs", bs "src/README.md"] true (by decide) (by decide)

/-- C8 amended: a pattern consisting of the bang alone is treated as a
negative pattern with empty remainder: the composer strips the bang and
feeds the negative set with exactly the candidates matched by the literal
empty pattern, the positive set receiving nothing, so the final answer
with that single pattern is false. -/
theorem c8_amended (F : List (List Byte)) :
    compose [[bBang]] F = .ok false ∧
    ∃ ne, buildSets F [[bBang]] [] [] = .ok ([], ne) ∧
      ∀ x, (x ∈ ne ↔ x ∈ F ∧ (x = [] ∨ x.head? = some bSlash)) := by
  have hm : ∀ f ∈ F, ∃ b, matches_any f [[]] = .ok b := by
    intro f _
    exact ⟨_, matches_any_one_ok [] f _ (match_batch_nil f)⟩
  obtain ⟨ne, hne⟩ := collectMatches_total_ok [] F hm []
  have hbs : buildSets F [[bBang]] [] [] = .ok ([], ne) := by
    rw [buildSets_cons_neg, hne]
    dsimp only
    rw [buildSets]
  refine ⟨?_, ne, hbs, ?_⟩
  · rw [compose, hbs]
    rfl
  · intro x
    rw [collectMatches_ok_mem [] F [] ne hne x]
    simp only [List.not_mem_nil, false_or]
    constructor
    · rintro ⟨hxf, hxm⟩
      refine ⟨hxf, ?_⟩
      have hx := matches_any_one_ok [] x _ (match_batch_nil x)
      rw [hx] at hxm
      exact of_decide_eq_true (Except.ok.inj hxm)
    · rintro ⟨hxf, hxp⟩
      refine ⟨hxf, ?_⟩
      have hx := matches_any_one_ok [] x _ (match_batch_nil x)
      rw [hx, decide_eq_true hxp]


/-! ### Claim C7: double star without a following slash -/

/-- The residual handling of the wildcard and possible-globstar states is
identical. -/
theorem finishActive_wild :
    ∀ active results,
      finishActive .InWildcard active results =
        finishActive .InPossibleGlobstar active results := by
  intro active
  induction active with
  | nil => intro results; rfl
  | cons a rest ih =>
    intro results
    rw [finishActive, finishActive]
    exact ih _

/-- On every byte other than slash and question mark, one loop iteration
treats the wildcard and possible-globstar states identically. -/
theorem loopStep_wild_eq (c : Byte) (rest : List Byte) (qc : Nat)
    (active : List ActiveString) (results : List Bool)
    (hc1 : c ≠ bSlash) (hc2 : c ≠ bQuest) :
    loopStep c rest .InWildcard qc active results =
      loopStep c rest .InPossibleGlobstar qc active results := by
  rw [loopStep.eq_def, loopStep.eq_def]
  split_ifs <;> rfl

/-- The main loop behaves identically from the wildcard and the
possible-globstar states whenever stripping the leading question marks of
the remaining pattern does not expose a slash. -/
theorem matchLoop_IW_IPG :
    ∀ fuel p qc active results,
      (p.dropWhile (fun b => b == bQuest)).head? ≠ some bSlash →
      matchLoop fuel p .InWildcard qc active results =
        matchLoop fuel p .InPossibleGlobstar qc active results := by
  intro fuel
  induction fuel with
  | zero => intros; rfl
  | succ n ih =>
    intro p qc active results hp
    match p, active with
    | [], active =>
      rw [matchLoop, matchLoop, finishActive_wild]
    | c :: rest, [] => rfl
    | c :: rest, a :: as =>
      rw [matchLoop, matchLoop]
      by_cases h42 : c = bStar
      · subst h42
        rfl
      · by_cases h47 : c = bSlash
        · subst h47
          refine absurd ?_ hp
          rw [List.dropWhile_cons_of_neg (by simp [bSlash, bQuest])]
          rfl
        · by_cases h63 : c = bQuest
          · subst h63
            have e1 : loopStep bQuest rest .InWildcard qc (a :: as) results =
                .ok (rest, .InWildcard, qc + 1, a :: as, results) := rfl
            have e2 : loopStep bQuest rest .InPossibleGlobstar qc (a :: as) results =
                .ok (rest, .InPossibleGlobstar, qc + 1, a :: as, results) := rfl
            rw [e1, e2]
            dsimp only
            have hp2 : (rest.dropWhile (fun b => b == bQuest)).head? ≠ some bSlash := by
              rw [List.dropWhile_cons_of_pos (by simp [bQuest])] at hp
              exact hp
            exact ih rest (qc + 1) (a :: as) results hp2
          · rw [loopStep_wild_eq c rest qc (a :: as) results h47 h63]

/-- Splitting the trailing-slash strip over a head element followed by a
non-empty tail. -/
theorem stripTrail_cons (x b : Byte) (t : List Byte) :
    stripTrailSlash (x :: b :: t) = x :: stripTrailSlash (b :: t) := by
  rw [stripTrailSlash, stripTrailSlash, List.getLast?_cons_cons]
  split_ifs with h
  · rfl
  · rfl

/-- Two leading stars step the literal machine into the possible-globstar
state; one leading star steps it into the wildcard state; under the
question-mark condition both continuations agree. -/
theorem matchLoop_two_star (n : Nat) (sfx : List Byte) (a : ActiveString)
    (as : List ActiveString) (R : List Bool)
    (hs : (sfx.dropWhile (fun b => b == bQuest)).head? ≠ some bSlash) :
    matchLoop (n + 2) (bStar :: bStar :: sfx) .Literal 0 (a :: as) R =
      matchLoop (n + 1) (bStar :: sfx) .Literal 0 (a :: as) R := by
  have e1 : loopStep bStar (bStar :: sfx) .Literal 0 (a :: as) R =
      .ok (bStar :: sfx, .InWildcard, 0, a :: as, R) := rfl
  have e2 : loopStep bStar sfx .InWildcard 0 (a :: as) R =
      .ok (sfx, .InPossibleGlobstar, 0, a :: as, R) := rfl
  have e3 : loopStep bStar sfx .Literal 0 (a :: as) R =
      .ok (sfx, .InWildcard, 0, a :: as, R) := rfl
  have L1 : matchLoop (n + 2) (bStar :: bStar :: sfx) .Literal 0 (a :: as) R =
      matchLoop (n + 1) (bStar :: sfx) .InWildcard 0 (a :: as) R := by
    rw [matchLoop, e1]
  have L2 : matchLoop (n + 1) (bStar :: sfx) .InWildcard 0 (a :: as) R =
      matchLoop n sfx .InPossibleGlobstar 0 (a :: as) R := by
    rw [matchLoop, e2]
  have L3 : matchLoop (n + 1) (bStar :: sfx) .Literal 0 (a :: as) R =
      matchLoop n sfx .InWildcard 0 (a :: as) R := by
    rw [matchLoop, e3]
  rw [L1, L2, L3]
  exact (matchLoop_IW_IPG n sfx 0 (a :: as) R hs).symm

/-- C7 amended: a double star behaves exactly as a single star on every
candidate list whenever the pattern suffix, after dropping its leading
run of question marks, does not begin with a slash.  When a slash does
follow the question-mark run, the double star confirms a globstar while
the single star resolves a wildcard, and the two patterns differ, as the
counterexample records. -/
theorem c7_amended (s : List Byte) (cs : List (List Byte))
    (hs : (s.dropWhile (fun b => b == bQuest)).head? ≠ some bSlash) :
    match_batch (bStar :: bStar :: s) cs = match_batch (bStar :: s) cs := by
  match cs with
  | [] => rfl
  | x :: xs =>
    have hne : ((x :: xs : List (List Byte))).isEmpty = false := rfl
    simp only [match_batch, hne, Bool.false_eq_true, if_false]
    -- the active list is non-empty
    cases hA : (x :: xs : List (List Byte)).enum.map
        (fun p => (⟨p.1, p.2, 0⟩ : ActiveString)) with
    | nil => simp [List.enum_cons] at hA
    | cons a as =>
      -- reduce the leading-slash strip
      have hl1 : stripLeadSlash (bStar :: bStar :: s) = bStar :: bStar :: s := rfl
      have hl2 : stripLeadSlash (bStar :: s) = bStar :: s := rfl
      rw [hl1, hl2]
      match s with
      | [] =>
        have h1 : stripTrailSlash [bStar, bStar] = [bStar, bStar] := by decide
        have h2 : stripTrailSlash [bStar] = [bStar] := by decide
        rw [h1, h2]
        exact matchLoop_two_star 1 [] a as _ (by simp)
      | y :: t =>
        have h1 : stripTrailSlash (bStar :: bStar :: y :: t) =
            bStar :: bStar :: stripTrailSlash (y :: t) := by
          rw [stripTrail_cons, stripTrail_cons]
        have h2 : stripTrailSlash (bStar :: y :: t) =
            bStar :: stripTrailSlash (y :: t) := by
          rw [stripTrail_cons]
        rw [h1, h2]
        have hs2 : ((stripTrailSlash (y :: t)).dropWhile
            (fun b => b == bQuest)).head? ≠ some bSlash := by
          rw [stripTrailSlash]
          split_ifs with hlast
          · -- the pattern suffix ends with a slash that is stripped
            by_cases hdw : (y :: t).dropLast.dropWhile (fun b => b == bQuest) = []
            · rw [hdw]
              simp
            · intro hc
              apply hs
              have hsplit : (y :: t) = (y :: t).dropLast ++ [bSlash] := by
                conv_lhs => rw [← List.dropLast_append_getLast (l := y :: t) (by simp)]
                have : (y :: t).getLast (by simp) = bSlash := by
                  have := List.getLast?_eq_getLast (y :: t) (by simp)
                  rw [hlast] at this
                  exact (Option.some.inj this).symm
                rw [this]
              have hem : ((y :: t).dropLast.dropWhile (fun b => b == bQuest)).isEmpty = false := by
                cases hdd : (y :: t).dropLast.dropWhile (fun b => b == bQuest) with
                | nil => exact absurd hdd hdw
                | cons z zs => rfl
              rw [hsplit, List.dropWhile_append, hem]
              rw [if_neg (by simp)]
              rw [List.head?_append, hc]
              rfl
          · exact hs
        exact matchLoop_two_star ((stripTrailSlash (y :: t)).length + 1)
          (stripTrailSlash (y :: t)) a as _ hs2

/-- Witness for C7 amended at a concrete suffix and candidate. -/
theorem c7_witness :
    match_batch (bStar :: bStar :: bs ".rs") [bs "a.rs"] =
      match_batch (bStar :: bs ".rs") [bs "a.rs"] :=
  c7_amended (bs ".rs") [bs "a.rs"] (by decide)


/-! ### Claim C2 amended: invalid constructs abort while candidates are active -/

/-- C2 amended: a pattern that begins with the invalid range aborts the
batch with the invalid-range error on every non-empty candidate list,
because the class is parsed while the initial active set is still full.
(When every candidate dies before the invalid construct is reached, the
loop exits early and a result vector is returned, as the counterexample
records.) -/
theorem c2_amended (cs : List (List Byte)) (h : cs ≠ []) :
    match_batch (bs "[z-a]") cs = .error "Invalid range [z-a]" := by
  match cs, h with
  | x :: xs, _ =>
    have hne : ((x :: xs : List (List Byte))).isEmpty = false := rfl
    simp only [match_batch, hne, Bool.false_eq_true, if_false]
    cases hA : (x :: xs : List (List Byte)).enum.map
        (fun p => (⟨p.1, p.2, 0⟩ : ActiveString)) with
    | nil => simp [List.enum_cons] at hA
    | cons a as =>
      have hnp : stripTrailSlash (stripLeadSlash (bs "[z-a]")) =
          [91, 122, 45, 97, 93] := by decide
      rw [hnp]
      rfl

/-- Witness for C2 amended on a concrete candidate. -/
theorem c2_amended_witness :
    match_batch (bs "[z-a]") [bs "m"] = .error "Invalid range [z-a]" ∧
      [bs "m"] ≠ ([] : List (List Byte)) :=
  ⟨c2_amended [bs "m"] (by decide), by decide⟩


/-! ### Claim C5: the literal trailing-slash equivalence -/

/-- With an empty active list the loop returns the results unchanged. -/
theorem matchLoop_empty_active (fuel : Nat) (p : List Byte)
    (st : PatternState) (qc : Nat) (results : List Bool) (h : 1 ≤ fuel) :
    matchLoop fuel p st qc [] results = .ok results := by
  match fuel, h with
  | n + 1, _ =>
    cases p with
    | nil => rw [matchLoop]; rfl
    | cons c rest => rw [matchLoop]

/-- match_batch on a single candidate reduces to the main loop on the
normalized pattern. -/
theorem match_batch_singleton_loop (p c : List Byte) :
    match_batch p [c] =
      matchLoop ((stripTrailSlash (stripLeadSlash p)).length + 1)
        (stripTrailSlash (stripLeadSlash p)) .Literal 0 [⟨0, c, 0⟩] [false] := by
  simp [match_batch, List.enum]

/-- The consume step on a single zero-indexed candidate. -/
theorem consumeByte_single0 (pred : Option Byte → Bool) (bytes : List Byte)
    (pos : Nat) (r0 : Bool) :
    consumeByte pred [⟨0, bytes, pos⟩] [r0] =
      if pred (bytes.get? pos) then ([⟨0, bytes, pos + 1⟩], [r0]) else ([], [false]) := by
  by_cases h : pred (bytes.get? pos)
  · rw [if_pos h]
    show consumeByteGo pred (0 + 1) 0 [⟨0, bytes, pos⟩] [r0] = _
    rw [consumeByteGo]
    have h2 : pred (⟨0, bytes, pos⟩ : ActiveString).currentByte = true := h
    simp [h2, ActiveString.advance, consumeByteGo]
  · rw [if_neg h]
    show consumeByteGo pred (0 + 1) 0 [⟨0, bytes, pos⟩] [r0] = _
    rw [consumeByteGo]
    have h2 : pred (⟨0, bytes, pos⟩ : ActiveString).currentByte = false := by
      rw [show (⟨0, bytes, pos⟩ : ActiveString).currentByte = bytes.get? pos from rfl,
        Bool.eq_false_iff]
      exact h
    simp [h2, swapRemove, consumeByteGo]

/-- On a pattern of literal bytes the machine computes litMatch. -/
theorem matchLoop_literal :
    ∀ q fuel c pos qc r0, literalPat q → q.length + 1 ≤ fuel →
      matchLoop fuel q .Literal qc [⟨0, c, pos⟩] [r0] = .ok [litMatch q c pos] := by
  intro q
  induction q with
  | nil =>
    intro fuel c pos qc r0 _ hfuel
    obtain ⟨n, rfl⟩ : ∃ n, fuel = n + 1 := ⟨fuel - 1, by omega⟩
    rw [matchLoop, litMatch]
    rw [finishActive, finishActive]
    cases hb : c.get? pos with
    | none =>
      have hcb : (⟨0, c, pos⟩ : ActiveString).currentByte = none := hb
      simp [exhaustVerdict, hcb]
    | some b =>
      have hcb : (⟨0, c, pos⟩ : ActiveString).currentByte = some b := hb
      simp [exhaustVerdict, hcb]
  | cons b qs ih =>
    intro fuel c pos qc r0 hlit hfuel
    obtain ⟨n, rfl⟩ : ∃ n, fuel = n + 1 := ⟨fuel - 1, by omega⟩
    have hb := hlit b (List.mem_cons_self b qs)
    have hlit2 : literalPat qs := fun x hx => hlit x (List.mem_cons_of_mem b hx)
    have hn : qs.length + 1 ≤ n := by
      simp only [List.length_cons] at hfuel
      omega
    rw [matchLoop]
    have hstep : loopStep b qs .Literal qc [⟨0, c, pos⟩] [r0] =
        .ok (qs, .Literal, qc,
          (consumeByte (fun x => x == some b) [⟨0, c, pos⟩] [r0]).1,
          (consumeByte (fun x => x == some b) [⟨0, c, pos⟩] [r0]).2) := by
      rw [loopStep.eq_def]
      rw [if_neg hb.1, if_neg hb.2.2.2, if_neg hb.2.1, if_neg hb.2.2.1]
      by_cases h47 : b = bSlash
      · subst h47
        rw [if_pos rfl]
      · rw [if_neg h47]
    rw [hstep]
    dsimp only
    rw [consumeByte_single0]
    by_cases hcur : c.get? pos = some b
    · rw [if_pos (by rw [hcur]; simp)]
      dsimp only
      rw [litMatch.eq_def]
      dsimp only
      rw [if_pos hcur]
      exact ih n c (pos + 1) qc r0 hlit2 hn
    · rw [if_neg (by simp only [beq_iff_eq]; exact hcur)]
      dsimp only
      rw [litMatch.eq_def]
      dsimp only
      rw [if_neg hcur]
      exact matchLoop_empty_active n qs .Literal qc [false] (by omega)


/-- Head of a drop is the indexed lookup. -/
theorem head?_drop_get (c : List Byte) (pos : Nat) :
    (c.drop pos).head? = c.get? pos := by
  rw [List.get?_eq_getElem?]
  exact List.head?_drop c pos

/-- litMatch as a prefix test followed by the residual rule. -/
theorem litMatch_eq :
    ∀ q c pos, litMatch q c pos =
      (begins q (c.drop pos) && dirOk (c.drop (pos + q.length))) := by
  intro q
  induction q with
  | nil =>
    intro c pos
    rw [litMatch, begins, Bool.true_and, List.length_nil, Nat.add_zero]
    cases hg : c.get? pos with
    | none =>
      have hd : c.drop pos = [] := by
        rw [List.drop_eq_nil_iff]
        rw [List.get?_eq_getElem?] at hg
        exact List.getElem?_eq_none_iff.mp hg
      rw [hd]
      rfl
    | some b =>
      have hd : (c.drop pos).head? = some b := by rw [head?_drop_get, hg]
      cases hdrop : c.drop pos with
      | nil => rw [hdrop] at hd; cases hd
      | cons y t =>
        rw [hdrop] at hd
        have hyb : y = b := by simpa using hd
        subst hyb
        rfl
  | cons b qs ih =>
    intro c pos
    rw [litMatch.eq_def]
    dsimp only
    cases hdrop : c.drop pos with
    | nil =>
      have hg : c.get? pos = none := by rw [← head?_drop_get, hdrop]; rfl
      rw [if_neg (by rw [hg]; exact fun hc => by cases hc)]
      rw [begins.eq_def]
      rfl
    | cons y t =>
      have hg : c.get? pos = some y := by rw [← head?_drop_get, hdrop]; rfl
      have ht : t = c.drop (pos + 1) := by
        have h2 := List.tail_drop c pos
        rw [hdrop] at h2
        rw [← h2]
        rfl
      rw [begins.eq_def]
      dsimp only
      by_cases hby : b = y
      · subst hby
        rw [if_pos hg, ih c (pos + 1)]
        have harith : pos + (b :: qs).length = (pos + 1) + qs.length := by
          simp only [List.length_cons]
          omega
        rw [harith, ← ht]
        simp
      · have hneq : ¬ c.get? pos = some b := by
          rw [hg]
          simp only [Option.some.injEq]
          exact fun hc => hby hc.symm
        rw [if_neg hneq]
        have hbe : (b == y) = false := by
          simp only [beq_eq_false_iff_ne, ne_eq]
          exact hby
        rw [hbe]
        simp

/-- The prefix test distributes over append. -/
theorem begins_append :
    ∀ p r c, begins (p ++ r) c = (begins p c && begins r (c.drop p.length)) := by
  intro p
  induction p with
  | nil =>
    intro r c
    rw [List.nil_append, begins, Bool.true_and, List.length_nil, List.drop_zero]
  | cons a ps ih =>
    intro r c
    cases c with
    | nil =>
      rw [List.cons_append, begins.eq_def, begins.eq_def]
      rfl
    | cons y t =>
      rw [List.cons_append, begins.eq_def]
      dsimp only
      conv_rhs => rw [begins.eq_def]
      dsimp only
      rw [ih r t, List.length_cons, List.drop_succ_cons, Bool.and_assoc]

/-- The prefix test of a singleton. -/
theorem begins_one (x : Byte) (d : List Byte) :
    begins [x] d = (d.head? == some x) := by
  cases d with
  | nil => rfl
  | cons y t =>
    rw [begins, begins, Bool.and_true, List.head?_cons]
    by_cases h : x = y
    · subst h
      simp
    · have h1 : (x == y) = false := by
        simp only [beq_eq_false_iff_ne, ne_eq]
        exact h
      have h2 : (some y == some x) = false := by
        simp only [beq_eq_false_iff_ne, ne_eq, Option.some.injEq]
        exact fun hc => h hc.symm
      rw [h1, h2]

/-- Every list begins with itself. -/
theorem begins_refl : ∀ l : List Byte, begins l l = true := by
  intro l
  induction l with
  | nil => rfl
  | cons a t ih => rw [begins, ih]; simp

/-- A list that begins with a prefix and has nothing after it equals the
prefix. -/
theorem eq_of_begins_drop_nil :
    ∀ (p c : List Byte), begins p c = true → c.drop p.length = [] → c = p := by
  intro p
  induction p with
  | nil =>
    intro c _ hd
    simpa using hd
  | cons a ps ih =>
    intro c hb hd
    cases c with
    | nil => rw [begins.eq_def] at hb; cases hb
    | cons y t =>
      rw [begins, Bool.and_eq_true] at hb
      obtain ⟨hay, hbt⟩ := hb
      have hya : a = y := by simpa using hay
      subst hya
      rw [List.length_cons, List.drop_succ_cons] at hd
      rw [ih t hbt hd]


/-- A prefix followed by its own remainder reconstructs the list. -/
theorem begins_drop_decomp :
    ∀ p c : List Byte, begins p c = true → c = p ++ c.drop p.length := by
  intro p
  induction p with
  | nil =>
    intro c _
    simp
  | cons a ps ih =>
    intro c hb
    cases c with
    | nil => rw [begins.eq_def] at hb; cases hb
    | cons y t =>
      rw [begins, Bool.and_eq_true] at hb
      obtain ⟨hay, hbt⟩ := hb
      have hay2 : a = y := by simpa using hay
      subst hay2
      rw [List.length_cons, List.drop_succ_cons, List.cons_append]
      rw [← ih t hbt]

/-- Every list begins any of its own extensions. -/
theorem begins_self_append : ∀ p r : List Byte, begins p (p ++ r) = true := by
  intro p
  induction p with
  | nil => intro r; rfl
  | cons a ps ih =>
    intro r
    rw [List.cons_append, begins, ih]
    simp

/-- A non-empty prefix never begins the empty list. -/
theorem begins_nil_of_ne (p : List Byte) (hp : p ≠ []) : begins p [] = false := by
  cases p with
  | nil => exact absurd rfl hp
  | cons a ps => rfl

/-- The directory-prefix law of a literal pattern without the trailing
slash: a true verdict forces the residual disjunction. -/
theorem litMatch_noslash_split (p c : List Byte) :
    litMatch p c 0 =
      (litMatch p c 0 &&
        (decide (c = []) || begins (p ++ [bSlash]) c || decide (c = p))) := by
  cases hv : litMatch p c 0
  · rfl
  · rw [Bool.true_and]
    rw [litMatch_eq, List.drop_zero, Nat.zero_add, Bool.and_eq_true] at hv
    obtain ⟨hB, hD⟩ := hv
    cases hdrop : c.drop p.length with
    | nil =>
      have hc : c = p := eq_of_begins_drop_nil p c hB hdrop
      rw [eq_comm]
      simp [hc]
    | cons y t =>
      rw [hdrop] at hD
      have hy : y = bSlash := by
        rw [dirOk] at hD
        simpa using hD
      subst hy
      have hb2 : begins (p ++ [bSlash]) c = true := by
        rw [begins_append, begins_one, hdrop, hB]
        simp
      rw [hb2]
      simp

/-- The trailing-slash split of a literal pattern that ends with a slash:
the machine on the pattern with the slash kept equals the machine on the
pattern with the slash stripped conjoined with the residual disjunction. -/
theorem litMatch_slash_split (q c : List Byte) (hq : q ≠ []) :
    litMatch (q ++ [bSlash]) c 0 =
      (litMatch q c 0 &&
        (decide (c = []) || begins ((q ++ [bSlash]) ++ [bSlash]) c ||
          decide (c = q ++ [bSlash]))) := by
  have hcnil : c = [] → begins q c = false := fun hc => by
    rw [hc]
    exact begins_nil_of_ne q hq
  have hlen : (q ++ [bSlash]).length = q.length + 1 := by simp
  cases hB : begins q c
  · -- the stripped pattern already fails as a prefix
    have hv : begins (q ++ [bSlash]) c = false := by
      rw [begins_append, hB]
      rfl
    rw [litMatch_eq, litMatch_eq, List.drop_zero, Nat.zero_add, hB, hv]
    rfl
  · cases hH : ((c.drop q.length).head? == some bSlash)
    · -- the candidate does not continue with a slash after the prefix
      have hv : begins (q ++ [bSlash]) c = false := by
        rw [begins_append, begins_one, hB, hH]
        rfl
      have hcne : decide (c = []) = false := by
        rw [decide_eq_false_iff_not]
        intro hc
        rw [hcnil hc] at hB
        cases hB
      have hceq : decide (c = q ++ [bSlash]) = false := by
        rw [decide_eq_false_iff_not]
        intro hc
        have : c.drop q.length = [bSlash] := by
          rw [hc]
          exact List.drop_left q [bSlash]
        rw [this] at hH
        simp at hH
      have hvv : begins ((q ++ [bSlash]) ++ [bSlash]) c = false := by
        rw [begins_append, hv]
        rfl
      rw [litMatch_eq (q ++ [bSlash]), List.drop_zero, Nat.zero_add, hv, hcne, hvv, hceq]
      simp
    · -- the candidate continues with a slash after the prefix
      obtain ⟨t, hdrop⟩ : ∃ t, c.drop q.length = bSlash :: t := by
        cases hd : c.drop q.length with
        | nil => rw [hd] at hH; simp at hH
        | cons y t =>
          rw [hd] at hH
          simp only [List.head?_cons, beq_iff_eq, Option.some.injEq] at hH
          exact ⟨t, by rw [hH]⟩
      have hw : litMatch q c 0 = true := by
        rw [litMatch_eq, List.drop_zero, Nat.zero_add, hB, hdrop]
        rfl
      have hv1 : begins (q ++ [bSlash]) c = true := by
        rw [begins_append, begins_one, hB, hdrop]
        rfl
      have hcne : decide (c = []) = false := by
        rw [decide_eq_false_iff_not]
        intro hc
        rw [hcnil hc] at hB
        cases hB
      have ht : t = c.drop (q.length + 1) := by
        have h2 := List.tail_drop c q.length
        rw [hdrop] at h2
        rw [← h2]
        rfl
      have hdecomp : c = q ++ bSlash :: t := by
        have := begins_drop_decomp q c hB
        rw [hdrop] at this
        exact this
      rw [litMatch_eq (q ++ [bSlash]), List.drop_zero, Nat.zero_add, hv1, hw, hlen, hcne]
      simp only [Bool.true_and, Bool.false_or]
      cases t with
      | nil =>
        have hceq : decide (c = q ++ [bSlash]) = true := by
          rw [decide_eq_true_iff]
          exact hdecomp
        rw [← ht, hceq]
        simp [dirOk]
      | cons z t2 =>
        have hceq : decide (c = q ++ [bSlash]) = false := by
          rw [decide_eq_false_iff_not]
          intro hc
          rw [hc] at hdecomp
          have := List.append_cancel_left hdecomp
          cases this
        have hvv : begins ((q ++ [bSlash]) ++ [bSlash]) c =
            ((c.drop (q.length + 1)).head? == some bSlash) := by
          rw [begins_append, begins_one, hv1, hlen]
          simp
        rw [hvv, ← ht, hceq]
        simp only [List.head?_cons, Bool.or_false]
        rw [dirOk]
        by_cases hz : z = bSlash
        · subst hz
          simp
        · have h1 : (z == bSlash) = false := by
            simp only [beq_eq_false_iff_ne, ne_eq]
            exact hz
          have h2 : (some z == some bSlash) = false := by
            simp only [beq_eq_false_iff_ne, ne_eq, Option.some.injEq]
            exact hz
          rw [h1, h2]


/-- The leading-slash strip is the identity on patterns that do not begin
with a slash. -/
theorem stripLead_of_ne (l : List Byte) (h : l.head? ≠ some bSlash) :
    stripLeadSlash l = l := by
  rw [stripLeadSlash.eq_def]
  split
  · exact absurd rfl h
  · rfl

/-- The trailing-slash strip removes exactly the appended slash. -/
theorem stripTrail_concat_slash (p : List Byte) :
    stripTrailSlash (p ++ [bSlash]) = p := by
  rw [stripTrailSlash]
  rw [if_pos (by rw [List.getLast?_concat])]
  exact List.dropLast_concat

/-- A pattern that normalises to the empty pattern matches exactly the
empty path and the paths that begin with a slash. -/
theorem match_batch_norm_nil (p : List Byte)
    (h : stripTrailSlash (stripLeadSlash p) = []) (c : List Byte) :
    match_batch p [c] = .ok [decide (c = [] ∨ c.head? = some bSlash)] := by
  rw [match_batch_singleton_loop, h]
  exact matchLoop_nil_single c

/-- A literal pattern that does not begin with a slash yields the machine
verdict litMatch through match_batch, with its trailing slash handling
given by the normalisation. -/
theorem match_batch_literal (p c : List Byte) (hlit : literalPat p)
    (hh : p.head? ≠ some bSlash) :
    match_batch p [c] = .ok [litMatch (stripTrailSlash p) c 0] := by
  rw [match_batch_singleton_loop, stripLead_of_ne p hh]
  apply matchLoop_literal
  · intro b hb
    apply hlit
    rw [stripTrailSlash] at hb
    split_ifs at hb with hl
    · exact List.dropLast_subset p hb
    · exact hb
  · exact le_refl _

/-- C5 amended: for a pattern p of literal bytes (no star, question mark,
class or escape) that does not begin with a slash, appending a slash to p
matches a candidate exactly when p matches it and the candidate is empty,
or begins with p followed by a slash, or equals p.  The unrestricted claim
fails: wildcard patterns (and patterns of slashes alone) break the
equivalence, as the counterexample records. -/
theorem c5_amended (p c : List Byte) (hlit : literalPat p)
    (hh : p.head? ≠ some bSlash) :
    ∃ v w : Bool,
      match_batch (p ++ [bSlash]) [c] = .ok [v] ∧
      match_batch p [c] = .ok [w] ∧
      v = (w && (decide (c = []) || begins (p ++ [bSlash]) c || decide (c = p))) := by
  cases hp : p with
  | nil =>
    refine ⟨decide (c = [] ∨ c.head? = some bSlash),
      decide (c = [] ∨ c.head? = some bSlash), ?_, ?_, ?_⟩
    · exact match_batch_norm_nil _ (by decide) c
    · exact match_batch_norm_nil _ (by decide) c
    · rw [List.nil_append, begins_one]
      cases c with
      | nil => decide
      | cons y t =>
        by_cases hy : y = bSlash
        · subst hy
          simp
        · simp [hy]
  | cons d ps =>
    rw [← hp]
    -- the left pattern normalises to p itself
    have hlhs : match_batch (p ++ [bSlash]) [c] = .ok [litMatch p c 0] := by
      rw [match_batch_singleton_loop]
      have h1 : stripLeadSlash (p ++ [bSlash]) = p ++ [bSlash] := by
        apply stripLead_of_ne
        have hh2 := hh
        rw [hp] at hh2 ⊢
        simp only [List.cons_append, List.head?_cons] at hh2 ⊢
        simpa using hh2
      rw [h1, stripTrail_concat_slash]
      exact matchLoop_literal p _ c 0 0 false hlit (le_refl _)
    have hrhs : match_batch p [c] = .ok [litMatch (stripTrailSlash p) c 0] :=
      match_batch_literal p c hlit hh
    refine ⟨litMatch p c 0, litMatch (stripTrailSlash p) c 0, hlhs, hrhs, ?_⟩
    by_cases hl : p.getLast? = some bSlash
    · -- p itself ends with a slash
      have hq : p = p.dropLast ++ [bSlash] :=
        (List.dropLast_append_getLast? bSlash (by rwa [Option.mem_def])).symm
      have hqne : p.dropLast ≠ [] := by
        intro hc
        rw [hc, List.nil_append] at hq
        rw [hq] at hh
        exact hh rfl
      have hst : stripTrailSlash p = p.dropLast := by
        rw [stripTrailSlash, if_pos hl]
      rw [hst]
      conv_lhs => rw [hq]
      rw [litMatch_slash_split p.dropLast c hqne]
      rw [← hq]
    · have hst : stripTrailSlash p = p := by
        rw [stripTrailSlash, if_neg hl]
      rw [hst]
      exact litMatch_noslash_split p c

/-- Witness for C5 amended on a concrete literal pattern and candidate. -/
theorem c5_witness :
    ∃ v w : Bool,
      match_batch (bs "src" ++ [bSlash]) [bs "src/x"] = .ok [v] ∧
      match_batch (bs "src") [bs "src/x"] = .ok [w] ∧
      v = (w && (decide (bs "src/x" = []) || begins (bs "src" ++ [bSlash]) (bs "src/x") ||
        decide (bs "src/x" = bs "src"))) :=
  c5_amended (bs "src") (bs "src/x") (by unfold literalPat; decide) (by decide)


/-! ### Directory-prefix extension: candidate byte agreement -/

/-- Lookups below the original length are unchanged by an extension. -/
theorem getq_lt (q s : List Byte) (x : Byte) (i : Nat) (h : i < q.length) :
    (q ++ x :: s).get? i = q.get? i := by
  rw [List.get?_eq_getElem?, List.get?_eq_getElem?]
  exact List.getElem?_append_left h

/-- A successful lookup is unchanged by an extension. -/
theorem getq_some (q s : List Byte) (x : Byte) (i : Nat) (b : Byte)
    (h : q.get? i = some b) : (q ++ x :: s).get? i = some b := by
  rw [getq_lt q s x i, h]
  rw [List.get?_eq_getElem?] at h
  exact (List.getElem?_eq_some.mp h).1

/-- The lookup at the original length finds the separator. -/
theorem getq_end (q s : List Byte) (x : Byte) :
    (q ++ x :: s).get? q.length = some x := by
  rw [List.get?_eq_getElem?]
  rw [List.getElem?_append_right (le_refl q.length)]
  simp

/-- A successful lookup bounds the index. -/
theorem getq_bound (q : List Byte) (i : Nat) (b : Byte)
    (h : q.get? i = some b) : i < q.length := by
  rw [List.get?_eq_getElem?] at h
  exact (List.getElem?_eq_some.mp h).1

/-- The backward character count only reads bytes strictly below its start
position, hence is unchanged by an extension past the original length. -/
theorem countBack_ext (q s : List Byte) (sp : Nat) :
    ∀ n, n ≤ q.length → countBack (q ++ bSlash :: s) sp n = countBack q sp n := by
  intro n
  induction n with
  | zero => intro _; rfl
  | succ m ih =>
    intro hn
    rw [countBack, countBack]
    rw [getq_lt q s bSlash m (by omega)]
    rw [ih (by omega)]


/-- The anchor walk never moves the candidate position backwards. -/
theorem walkSegGo_ge (B : List Byte) :
    ∀ fuel ps i m p2 j, walkSegGo B fuel ps i = .ok (m, p2, j) → i ≤ j := by
  intro fuel
  induction fuel with
  | zero =>
    intro ps i m p2 j h
    cases ps with
    | nil => rw [walkSegGo] at h; cases h; exact le_refl i
    | cons c rest =>
      rw [walkSegGo.eq_def] at h
      dsimp only at h
      cases h; exact le_refl i
  | succ n ih =>
    intro ps i m p2 j h
    cases ps with
    | nil => rw [walkSegGo] at h; cases h; exact le_refl i
    | cons c rest =>
      rw [walkSegGo.eq_def] at h
      dsimp only at h
      split_ifs at h with hbs hst hlb hq hr
      · -- backslash
        cases rest with
        | nil => cases h
        | cons e rest2 =>
          dsimp only at h
          split_ifs at h
          · exact le_trans (by omega) (ih _ _ _ _ _ h)
          · cases h; exact le_refl i
      · cases h; exact le_refl i
      · -- charset
        cases hcs : extractCharset (c :: rest) with
        | error e => rw [hcs] at h; cases h
        | ok t =>
          obtain ⟨cs, after⟩ := t
          rw [hcs] at h
          dsimp only at h
          cases hb : B.get? i with
          | none => rw [hb] at h; cases h; exact le_refl i
          | some b =>
            rw [hb] at h
            dsimp only at h
            split_ifs at h
            · exact le_trans (by omega) (ih _ _ _ _ _ h)
            · cases h; exact le_refl i
      · -- question mark
        cases hb : B.get? i with
        | none => rw [hb] at h; cases h; exact le_refl i
        | some b =>
          rw [hb] at h
          dsimp only at h
          split_ifs at h
          · exact le_trans (by omega) (ih _ _ _ _ _ h)
          · cases h; exact le_refl i
      · exact le_trans (by omega) (ih _ _ _ _ _ h)
      · cases h; exact le_refl i

/-- A successful walk that starts within the candidate ends within it. -/
theorem walkSegGo_true_bound (B : List Byte) :
    ∀ fuel ps i p2 j, walkSegGo B fuel ps i = .ok (true, p2, j) →
      i ≤ B.length → j ≤ B.length := by
  intro fuel
  induction fuel with
  | zero =>
    intro ps i p2 j h hi
    cases ps with
    | nil => rw [walkSegGo] at h; cases h; exact hi
    | cons c rest =>
      rw [walkSegGo.eq_def] at h
      dsimp only at h
      cases h
  | succ n ih =>
    intro ps i p2 j h hi
    cases ps with
    | nil => rw [walkSegGo] at h; cases h; exact hi
    | cons c rest =>
      rw [walkSegGo.eq_def] at h
      dsimp only at h
      split_ifs at h with hbs hst hlb hq hr
      · cases rest with
        | nil => cases h
        | cons e rest2 =>
          dsimp only at h
          split_ifs at h with hr2
          · exact ih _ _ _ _ h (by have := getq_bound B i e hr2; omega)
          · cases h
      · cases h; exact hi
      · cases hcs : extractCharset (c :: rest) with
        | error e => rw [hcs] at h; cases h
        | ok t =>
          obtain ⟨cs, after⟩ := t
          rw [hcs] at h
          dsimp only at h
          cases hb : B.get? i with
          | none => rw [hb] at h; cases h
          | some b =>
            rw [hb] at h
            dsimp only at h
            split_ifs at h
            · exact ih _ _ _ _ h (by have := getq_bound B i b hb; omega)
            · cases h
      · cases hb : B.get? i with
        | none => rw [hb] at h; cases h
        | some b =>
          rw [hb] at h
          dsimp only at h
          split_ifs at h
          · exact ih _ _ _ _ h (by have := getq_bound B i b hb; omega)
          · cases h
      · exact ih _ _ _ _ h (by have := getq_bound B i c hr; omega)
      · cases h

/-- A successful walk is unchanged by extending the candidate, because
every byte it consumed was present in the original. -/
theorem walkSegGo_true_ext (q s : List Byte) :
    ∀ fuel ps i p2 j, walkSegGo q fuel ps i = .ok (true, p2, j) →
      walkSegGo (q ++ bSlash :: s) fuel ps i = .ok (true, p2, j) := by
  intro fuel
  induction fuel with
  | zero =>
    intro ps i p2 j h
    cases ps with
    | nil => rw [walkSegGo] at h; rw [walkSegGo]; exact h
    | cons c rest =>
      rw [walkSegGo.eq_def] at h
      dsimp only at h
      cases h
  | succ n ih =>
    intro ps i p2 j h
    cases ps with
    | nil => rw [walkSegGo] at h; rw [walkSegGo]; exact h
    | cons c rest =>
      rw [walkSegGo.eq_def] at h
      dsimp only at h
      rw [walkSegGo.eq_def]
      dsimp only
      split_ifs at h with hbs hst hlb hq hr
      · rw [if_pos hbs]
        cases rest with
        | nil => cases h
        | cons e rest2 =>
          dsimp only at h ⊢
          split_ifs at h with hr2
          · rw [if_pos (getq_some q s bSlash i e hr2)]
            exact ih _ _ _ _ h
          · cases h
      · rw [if_neg hbs, if_pos hst]
        exact h
      · rw [if_neg hbs, if_neg hst, if_pos hlb]
        cases hcs : extractCharset (c :: rest) with
        | error e => rw [hcs] at h; cases h
        | ok t =>
          obtain ⟨cs, after⟩ := t
          rw [hcs] at h
          dsimp only at h ⊢
          cases hb : q.get? i with
          | none => rw [hb] at h; cases h
          | some b =>
            rw [hb] at h
            rw [getq_some q s bSlash i b hb]
            dsimp only at h ⊢
            split_ifs at h ⊢
            · exact ih _ _ _ _ h
            · cases h
      · rw [if_neg hbs, if_neg hst, if_neg hlb, if_pos hq]
        cases hb : q.get? i with
        | none => rw [hb] at h; cases h
        | some b =>
          rw [hb] at h
          rw [getq_some q s bSlash i b hb]
          dsimp only at h ⊢
          split_ifs at h ⊢
          · exact ih _ _ _ _ h
          · cases h
      · rw [if_neg hbs, if_neg hst, if_neg hlb, if_neg hq,
          if_pos (getq_some q s bSlash i c hr)]
        exact ih _ _ _ _ h
      · cases h


/-- The charset parser strictly shortens the pattern suffix. -/
theorem extractCharsetGo_len (neg : Bool) :
    ∀ n l items cs after, l.length ≤ n →
      extractCharsetGo neg items l = .ok (cs, after) → after.length < l.length := by
  intro n
  induction n with
  | zero =>
    intro l items cs after hn h
    cases l with
    | nil => cases h
    | cons a t => simp at hn
  | succ m ih =>
    intro l items cs after hn h
    rw [extractCharsetGo.eq_def] at h
    split at h
    · cases h
    · cases h
    · -- escaped byte, consumes two
      simp only [List.length_cons] at hn ⊢
      have := ih _ _ _ _ (by omega) h
      omega
    · -- closing bracket
      split_ifs at h <;> cases h <;> simp only [List.length_cons] <;> omega
    · -- literal dash before the closing bracket
      cases h
      simp only [List.length_cons]
      omega
    · -- range, consumes three
      split_ifs at h
      simp only [List.length_cons] at hn ⊢
      have := ih _ _ _ _ (by omega) h
      omega
    · -- plain byte
      simp only [List.length_cons] at hn ⊢
      have := ih _ _ _ _ (by omega) h
      omega

/-- extract_charset strictly shortens the pattern suffix. -/
theorem extractCharset_len (l : List Byte) (cs : CharSet) (after : List Byte)
    (h : extractCharset l = .ok (cs, after)) : after.length < l.length := by
  rw [extractCharset.eq_def] at h
  split at h
  · rename_i rest
    split at h
    · have := extractCharsetGo_len true _ _ _ _ _ (le_refl _) h
      simp only [List.length_cons]
      omega
    · have := extractCharsetGo_len true _ _ _ _ _ (le_refl _) h
      simp only [List.length_cons]
      omega
    · have := extractCharsetGo_len false _ _ _ _ _ (le_refl _) h
      simp only [List.length_cons]
      omega
  · cases h

/-- Each walk item consumes exactly one candidate byte, so a failing walk
consumes strictly fewer candidate bytes than a succeeding walk of the same
pattern suffix. -/
theorem walk2 (B : List Byte) :
    ∀ fuel1 ps fuel2 i1 i2 p1 j1 p2 j2, ps.length ≤ fuel1 → ps.length ≤ fuel2 →
      walkSegGo B fuel1 ps i1 = .ok (true, p1, j1) →
      walkSegGo B fuel2 ps i2 = .ok (false, p2, j2) →
      j2 + i1 < j1 + i2 := by
  intro fuel1
  induction fuel1 with
  | zero =>
    intro ps fuel2 i1 i2 p1 j1 p2 j2 h1n h2n h1 h2
    cases ps with
    | nil => rw [walkSegGo] at h2; cases h2
    | cons c rest => simp at h1n
  | succ n ih =>
    intro ps fuel2 i1 i2 p1 j1 p2 j2 h1n h2n h1 h2
    cases ps with
    | nil => rw [walkSegGo] at h2; cases h2
    | cons c rest =>
      obtain ⟨m2, rfl⟩ : ∃ m2, fuel2 = m2 + 1 := by
        cases fuel2 with
        | zero => simp at h2n
        | succ k => exact ⟨k, rfl⟩
      simp only [List.length_cons] at h1n h2n
      rw [walkSegGo.eq_def] at h1 h2
      dsimp only at h1 h2
      split_ifs at h1 h2 with hbs hst hlb hq hr1 hr2a hr2b
      · -- backslash
        cases rest with
        | nil => cases h1
        | cons e rest2 =>
          simp only [List.length_cons] at h1n h2n
          dsimp only at h1 h2
          split_ifs at h1 h2 with hrA hrB hrC
          · have := ih rest2 m2 (i1 + 1) (i2 + 1) p1 j1 p2 j2
              (by omega) (by omega) h1 h2
            omega
          · have hge := walkSegGo_ge B n rest2 (i1 + 1) true p1 j1 h1
            cases h2
            omega
          · cases h1
          · cases h1
      · cases h2
      · -- charset
        cases hcs : extractCharset (c :: rest) with
        | error e => rw [hcs] at h1; cases h1
        | ok t =>
          obtain ⟨cs2, after2⟩ := t
          rw [hcs] at h1 h2
          dsimp only at h1 h2
          have hafter := extractCharset_len _ _ _ hcs
          simp only [List.length_cons] at hafter
          cases hb1 : B.get? i1 with
          | none => rw [hb1] at h1; cases h1
          | some b1 =>
            rw [hb1] at h1
            dsimp only at h1
            split_ifs at h1 with hm1
            · cases hb2 : B.get? i2 with
              | none =>
                rw [hb2] at h2
                have hge := walkSegGo_ge B n after2 (i1 + 1) true p1 j1 h1
                cases h2
                omega
              | some b2 =>
                rw [hb2] at h2
                dsimp only at h2
                split_ifs at h2 with hm2
                · have := ih after2 m2 (i1 + 1) (i2 + 1) p1 j1 p2 j2
                    (by omega) (by omega) h1 h2
                  omega
                · have hge := walkSegGo_ge B n after2 (i1 + 1) true p1 j1 h1
                  cases h2
                  omega
            · cases h1
      · -- question mark
        cases hb1 : B.get? i1 with
        | none => rw [hb1] at h1; cases h1
        | some b1 =>
          rw [hb1] at h1
          dsimp only at h1
          split_ifs at h1 with hm1
          · cases hb2 : B.get? i2 with
            | none =>
              rw [hb2] at h2
              have hge := walkSegGo_ge B n rest (i1 + 1) true p1 j1 h1
              cases h2
              omega
            | some b2 =>
              rw [hb2] at h2
              dsimp only at h2
              split_ifs at h2 with hm2
              · have := ih rest m2 (i1 + 1) (i2 + 1) p1 j1 p2 j2
                  (by omega) (by omega) h1 h2
                omega
              · have hge := walkSegGo_ge B n rest (i1 + 1) true p1 j1 h1
                cases h2
                omega
          · cases h1
      · -- literal byte, both reads succeed
        have := ih rest m2 (i1 + 1) (i2 + 1) p1 j1 p2 j2
          (by omega) (by omega) h1 h2
        omega
      · -- literal byte, failing walk stops here
        have hge := walkSegGo_ge B n rest (i1 + 1) true p1 j1 h1
        cases h2
        omega
      · cases h1
      · cases h1


/-- A failing walk whose stop position lies strictly inside the candidate
is unchanged by extending the candidate. -/
theorem walkSegGo_false_ext (q s : List Byte) :
    ∀ fuel ps i p2 j, walkSegGo q fuel ps i = .ok (false, p2, j) →
      j < q.length → walkSegGo (q ++ bSlash :: s) fuel ps i = .ok (false, p2, j) := by
  intro fuel
  induction fuel with
  | zero =>
    intro ps i p2 j h hj
    cases ps with
    | nil => rw [walkSegGo] at h; cases h
    | cons c rest =>
      rw [walkSegGo.eq_def] at h
      dsimp only at h
      rw [walkSegGo.eq_def]
      dsimp only
      exact h
  | succ n ih =>
    intro ps i p2 j h hj
    cases ps with
    | nil => rw [walkSegGo] at h; cases h
    | cons c rest =>
      rw [walkSegGo.eq_def] at h
      dsimp only at h
      rw [walkSegGo.eq_def]
      dsimp only
      split_ifs at h with hbs hst hlb hq hr
      · rw [if_pos hbs]
        cases rest with
        | nil => cases h
        | cons e rest2 =>
          dsimp only at h ⊢
          split_ifs at h with hr2
          · rw [if_pos (getq_some q s bSlash i e hr2)]
            exact ih _ _ _ _ h hj
          · cases h
            rw [if_neg (by rw [getq_lt q s bSlash i hj]; exact hr2)]
      · cases h
      · rw [if_neg hbs, if_neg hst, if_pos hlb]
        cases hcs : extractCharset (c :: rest) with
        | error e => rw [hcs] at h; cases h
        | ok t =>
          obtain ⟨cs2, after2⟩ := t
          rw [hcs] at h
          dsimp only at h ⊢
          cases hb : q.get? i with
          | none =>
            rw [hb] at h
            cases h
            rw [List.get?_eq_getElem?, List.getElem?_eq_none_iff] at hb
            omega
          | some b =>
            rw [hb] at h
            rw [getq_some q s bSlash i b hb]
            dsimp only at h ⊢
            split_ifs at h ⊢
            · exact ih _ _ _ _ h hj
            · cases h
              rfl
      · rw [if_neg hbs, if_neg hst, if_neg hlb, if_pos hq]
        cases hb : q.get? i with
        | none =>
          rw [hb] at h
          cases h
          rw [List.get?_eq_getElem?, List.getElem?_eq_none_iff] at hb
          omega
        | some b =>
          rw [hb] at h
          rw [getq_some q s bSlash i b hb]
          dsimp only at h ⊢
          split_ifs at h ⊢
          · exact ih _ _ _ _ h hj
          · cases h
            rfl
      · rw [if_neg hbs, if_neg hst, if_neg hlb, if_neg hq,
          if_pos (getq_some q s bSlash i c hr)]
        exact ih _ _ _ _ h hj
      · cases h
        rw [if_neg hbs, if_neg hst, if_neg hlb, if_neg hq,
          if_neg (by rw [getq_lt q s bSlash i hj]; exact hr)]

/-- A successful trial loop contains a successful walk at some position
within the candidate at or after the current trial position. -/
theorem tryFrom_success_walk (ps : List Byte) (g : Bool) (rc : Nat)
    (B : List Byte) (sp : Nat) :
    ∀ rem tryPos term np pp, rem + tryPos = B.length + 1 →
      tryFrom ps g rc B sp rem tryPos term = .ok (some (np, pp)) →
      ∃ ts, tryPos ≤ ts ∧ ts ≤ B.length ∧
        walkSegGo B ps.length ps ts = .ok (true, pp, np) := by
  intro rem
  induction rem with
  | zero =>
    intro tryPos term np pp hinv h
    rw [tryFrom] at h
    cases h
  | succ m ih =>
    intro tryPos term np pp hinv h
    rw [tryFrom] at h
    dsimp only at h
    cases hw : walkSeg ps B tryPos with
    | error e =>
      rw [hw] at h
      dsimp only at h
      split_ifs at h
      all_goals try (cases h; done)
      all_goals
        obtain ⟨ts, h1, h2, h3⟩ := ih (tryPos + 1) _ np pp (by omega) h
      all_goals exact ⟨ts, by omega, h2, h3⟩
    | ok t =>
      obtain ⟨matched, pstop, sstop⟩ := t
      rw [hw] at h
      dsimp only at h
      split_ifs at h
      all_goals try (cases h; done)
      all_goals try
        (have hm : matched = true := by assumption
         subst hm
         cases h
         exact ⟨tryPos, le_refl _, by omega, hw⟩)
      all_goals
        obtain ⟨ts, h1, h2, h3⟩ := ih (tryPos + 1) _ np pp (by omega) h
      all_goals exact ⟨ts, by omega, h2, h3⟩

/-- A successful trial loop is unchanged by extending the candidate past a
separator: every byte read on the way to the first success lies within the
original candidate, and the success position is bounded by it. -/
theorem tryFrom_ext (ps : List Byte) (g : Bool) (rc : Nat) (q s : List Byte)
    (sp : Nat) :
    ∀ rem rem2 tryPos term np pp, rem + tryPos = q.length + 1 → rem ≤ rem2 →
      tryFrom ps g rc q sp rem tryPos term = .ok (some (np, pp)) →
      tryFrom ps g rc (q ++ bSlash :: s) sp rem2 tryPos term =
        .ok (some (np, pp)) ∧ np ≤ q.length := by
  intro rem
  induction rem with
  | zero =>
    intro rem2 tryPos term np pp hinv hle h
    rw [tryFrom] at h
    cases h
  | succ m ih =>
    intro rem2 tryPos term np pp hinv hle h
    obtain ⟨m2, rfl⟩ : ∃ m2, rem2 = m2 + 1 := ⟨rem2 - 1, by omega⟩
    rw [tryFrom] at h
    rw [tryFrom]
    dsimp only at h ⊢
    rw [countBack_ext q s sp tryPos (by omega)]
    cases hw : walkSeg ps q tryPos with
    | error e =>
      rw [hw] at h
      dsimp only at h
      split_ifs at h ⊢
      all_goals try (cases h; done)
      all_goals exact ih m2 (tryPos + 1) _ np pp (by omega) (by omega) h
    | ok t =>
      obtain ⟨matched, pstop, sstop⟩ := t
      rw [hw] at h
      dsimp only at h
      split_ifs at h ⊢
      all_goals try (cases h; done)
      all_goals try
        (have hm : matched = true := by assumption
         subst hm
         cases h
         have hext := walkSegGo_true_ext q s ps.length ps tryPos pp np hw
         have hbound := walkSegGo_true_bound q ps.length ps tryPos pp np hw
           (by omega)
         rw [show walkSeg ps (q ++ bSlash :: s) tryPos =
           .ok (true, pp, np) from hext]
         dsimp only
         rw [if_pos rfl]
         exact ⟨rfl, hbound⟩)
      all_goals try
        (have hm : matched = false := by rw [← Bool.not_eq_true]; assumption
         subst hm
         by_cases hlt : tryPos < q.length
         · obtain ⟨ts, hts1, hts2, hts3⟩ := tryFrom_success_walk ps g rc q sp
             m (tryPos + 1) _ np pp (by omega) h
           have hnp := walkSegGo_true_bound q ps.length ps ts pp np hts3 hts2
           have hcount := walk2 q ps.length ps ps.length ts tryPos pp np pstop
             sstop (le_refl _) (le_refl _) hts3 hw
           have hsb : sstop < q.length := by omega
           have hfe := walkSegGo_false_ext q s ps.length ps tryPos pstop sstop
             hw hsb
           rw [show walkSeg ps (q ++ bSlash :: s) tryPos =
             .ok (false, pstop, sstop) from hfe]
           dsimp only
           rw [if_neg (by simp)]
           rw [getq_lt q s bSlash tryPos hlt]
           exact ih m2 (tryPos + 1) _ np pp (by omega) (by omega) h
         · have hm0 : m = 0 := by omega
           subst hm0
           rw [tryFrom] at h
           cases h)
      all_goals exact ih m2 (tryPos + 1) _ np pp (by omega) (by omega) h


/-- A lookup at or past the length fails. -/
theorem getq_none (q : List Byte) (pos : Nat) (h : q.length ≤ pos) :
    q.get? pos = none := by
  rw [List.get?_eq_getElem?, List.getElem?_eq_none_iff]
  exact h

/-- The wildcard sweep body on a single zero-indexed candidate. -/
theorem mwsGo_single (ps : List Byte) (g : Bool) (rc : Nat) (B : List Byte)
    (pos : Nat) (r : Bool) :
    mwsGo ps g rc 1 0 none [⟨0, B, pos⟩] [r] =
      match tryFrom ps g rc B pos (B.length + 1 - pos) pos false with
      | .error e => .error e
      | .ok none => .ok (none, [], [false])
      | .ok (some (newPos, pstop)) =>
        .ok (some pstop, [⟨0, B, newPos⟩], [r]) := by
  show mwsGo ps g rc (0 + 1) 0 none [⟨0, B, pos⟩] [r] = _
  rw [mwsGo]
  simp only [List.get?_cons_zero]
  cases ht : tryFrom ps g rc B pos (B.length + 1 - pos) pos false with
  | error e => rfl
  | ok o =>
    cases o with
    | none => rfl
    | some v =>
      obtain ⟨newPos, pstop⟩ := v
      rfl

/-- match_wildcard_segment on a single zero-indexed candidate. -/
theorem mws_single (c : Byte) (rest : List Byte) (g : Bool) (rc : Nat)
    (B : List Byte) (pos : Nat) (r : Bool) :
    matchWildcardSegment (c :: rest) g rc [⟨0, B, pos⟩] [r] =
      match tryFrom (c :: rest) g rc B pos (B.length + 1 - pos) pos false with
      | .error e => .error e
      | .ok none => .ok ([], [], [false])
      | .ok (some (newPos, pstop)) => .ok (pstop, [⟨0, B, newPos⟩], [r]) := by
  rw [matchWildcardSegment]
  rw [show ([(⟨0, B, pos⟩ : ActiveString)]).length = 1 from rfl]
  rw [mwsGo_single]
  cases ht : tryFrom (c :: rest) g rc B pos (B.length + 1 - pos) pos false with
  | error e => rfl
  | ok o =>
    cases o with
    | none => rfl
    | some v =>
      obtain ⟨newPos, pstop⟩ := v
      rfl


/-- One loop iteration on a single zero-indexed candidate either removes
it, marking its result false, or keeps it as the sole candidate with its
result untouched. -/
theorem loopStep_single_shape (B : List Byte) (c : Byte) (rest : List Byte)
    (st : PatternState) (qc pos : Nat) (r : Bool) (next : List Byte)
    (st2 : PatternState) (qc2 : Nat) (act : List ActiveString)
    (res : List Bool)
    (h : loopStep c rest st qc [⟨0, B, pos⟩] [r] = .ok (next, st2, qc2, act, res)) :
    (act = [] ∧ res = [false]) ∨ (∃ pos2, act = [⟨0, B, pos2⟩] ∧ res = [r]) := by
  rw [loopStep.eq_def] at h
  split_ifs at h
  all_goals cases st
  all_goals dsimp only at h
  -- pass-through branches
  all_goals try
    (cases h
     exact Or.inr ⟨pos, rfl, rfl⟩)
  -- consume-byte branches
  all_goals try
    (rw [consumeByte_single0] at h
     split at h
     · dsimp only at h
       cases h
       exact Or.inr ⟨pos + 1, rfl, rfl⟩
     · dsimp only at h
       cases h
       exact Or.inl ⟨rfl, rfl⟩)
  -- wildcard segment branches
  all_goals try
    (cases hm : matchWildcardSegment (c :: rest) false qc
        [⟨0, B, pos⟩] [r] with
     | error e =>
       rw [hm] at h
       dsimp only at h
       cases h
     | ok t =>
       obtain ⟨mnext, mact, mres⟩ := t
       rw [hm] at h
       dsimp only at h
       cases h
       rw [mws_single] at hm
       split at hm
       · cases hm
       · cases hm
         exact Or.inl ⟨rfl, rfl⟩
       · rename_i newPos pstop heq
         cases hm
         exact Or.inr ⟨newPos, rfl, rfl⟩)
  all_goals try
    (cases hm : matchWildcardSegment (c :: rest) true qc
        [⟨0, B, pos⟩] [r] with
     | error e =>
       rw [hm] at h
       dsimp only at h
       cases h
     | ok t =>
       obtain ⟨mnext, mact, mres⟩ := t
       rw [hm] at h
       dsimp only at h
       cases h
       rw [mws_single] at hm
       split at hm
       · cases hm
       · cases hm
         exact Or.inl ⟨rfl, rfl⟩
       · rename_i newPos pstop heq
         cases hm
         exact Or.inr ⟨newPos, rfl, rfl⟩)
  -- character class in literal state
  all_goals try
    (cases hcs : extractCharset (c :: rest) with
     | error e =>
       rw [hcs] at h
       dsimp only at h
       cases h
     | ok t =>
       obtain ⟨charset, after⟩ := t
       rw [hcs] at h
       dsimp only at h
       rw [consumeByte_single0] at h
       split at h
       · dsimp only at h
         cases h
         exact Or.inr ⟨pos + 1, rfl, rfl⟩
       · dsimp only at h
         cases h
         exact Or.inl ⟨rfl, rfl⟩)
  -- escaped byte in literal state
  all_goals
    cases rest with
    | nil =>
      dsimp only at h
      cases h
    | cons e rest2 =>
      dsimp only at h
      rw [consumeByte_single0] at h
      split at h
      · dsimp only at h
        cases h
        exact Or.inr ⟨pos + 1, rfl, rfl⟩
      · dsimp only at h
        cases h
        exact Or.inl ⟨rfl, rfl⟩

/-- One loop iteration on a single surviving zero-indexed candidate acts
identically on the candidate extended past a separator, and keeps the
position within the original length. -/
theorem loopStep_single_ext (q s : List Byte) (c : Byte) (rest : List Byte)
    (st : PatternState) (qc pos : Nat) (r r2 : Bool) (next : List Byte)
    (st2 : PatternState) (qc2 pos2 : Nat) (hpos : pos ≤ q.length)
    (h : loopStep c rest st qc [⟨0, q, pos⟩] [r] =
      .ok (next, st2, qc2, [⟨0, q, pos2⟩], [r2])) :
    pos2 ≤ q.length ∧ r2 = r ∧
      loopStep c rest st qc [⟨0, q ++ bSlash :: s, pos⟩] [r] =
        .ok (next, st2, qc2, [⟨0, q ++ bSlash :: s, pos2⟩], [r2]) := by
  rw [loopStep.eq_def] at h ⊢
  split_ifs at h ⊢
  all_goals cases st
  all_goals dsimp only at h ⊢
  -- pass-through branches
  all_goals try
    (cases h
     exact ⟨hpos, rfl, rfl⟩)
  -- consume-byte branches
  all_goals try
    (rw [consumeByte_single0] at h ⊢
     split at h
     · rename_i hp
       dsimp only at h
       cases h
       have hlt : pos < q.length := by
         by_contra hge
         rw [getq_none q pos (by omega)] at hp
         exact absurd hp Bool.false_ne_true
       rw [getq_lt q s bSlash pos hlt, if_pos hp]
       dsimp only
       exact ⟨by omega, rfl, rfl⟩
     · dsimp only at h
       cases h)
  -- wildcard segment branches
  all_goals try
    (cases hm : matchWildcardSegment (c :: rest) false qc
        [⟨0, q, pos⟩] [r] with
     | error e =>
       rw [hm] at h
       dsimp only at h
       cases h
     | ok t =>
       obtain ⟨mnext, mact, mres⟩ := t
       rw [hm] at h
       dsimp only at h
       cases h
       rw [mws_single] at hm
       cases ht : tryFrom (c :: rest) false qc q pos
           (q.length + 1 - pos) pos false with
       | error e =>
         rw [ht] at hm
         dsimp only at hm
         cases hm
       | ok o =>
         rw [ht] at hm
         cases o with
         | none =>
           dsimp only at hm
           cases hm
         | some v =>
           obtain ⟨newPos, pstop⟩ := v
           dsimp only at hm
           cases hm
           obtain ⟨hext, hb⟩ := tryFrom_ext (c :: rest) false qc q s pos
             (q.length + 1 - pos) ((q ++ bSlash :: s).length + 1 - pos) pos
             false _ _ (by omega)
             (by simp only [List.length_append, List.length_cons]; omega) ht
           rw [mws_single, hext]
           dsimp only
           exact ⟨hb, rfl, rfl⟩)
  all_goals try
    (cases hm : matchWildcardSegment (c :: rest) true qc
        [⟨0, q, pos⟩] [r] with
     | error e =>
       rw [hm] at h
       dsimp only at h
       cases h
     | ok t =>
       obtain ⟨mnext, mact, mres⟩ := t
       rw [hm] at h
       dsimp only at h
       cases h
       rw [mws_single] at hm
       cases ht : tryFrom (c :: rest) true qc q pos
           (q.length + 1 - pos) pos false with
       | error e =>
         rw [ht] at hm
         dsimp only at hm
         cases hm
       | ok o =>
         rw [ht] at hm
         cases o with
         | none =>
           dsimp only at hm
           cases hm
         | some v =>
           obtain ⟨newPos, pstop⟩ := v
           dsimp only at hm
           cases hm
           obtain ⟨hext, hb⟩ := tryFrom_ext (c :: rest) true qc q s pos
             (q.length + 1 - pos) ((q ++ bSlash :: s).length + 1 - pos) pos
             false _ _ (by omega)
             (by simp only [List.length_append, List.length_cons]; omega) ht
           rw [mws_single, hext]
           dsimp only
           exact ⟨hb, rfl, rfl⟩)
  -- character class in literal state
  all_goals try
    (cases hcs : extractCharset (c :: rest) with
     | error e =>
       rw [hcs] at h
       dsimp only at h
       cases h
     | ok t =>
       obtain ⟨charset, after⟩ := t
       rw [hcs] at h
       dsimp only at h ⊢
       rw [consumeByte_single0] at h ⊢
       split at h
       · rename_i hp
         dsimp only at h
         cases h
         have hlt : pos < q.length := by
           by_contra hge
           rw [getq_none q pos (by omega)] at hp
           exact absurd hp Bool.false_ne_true
         rw [getq_lt q s bSlash pos hlt, if_pos hp]
         dsimp only
         exact ⟨by omega, rfl, rfl⟩
       · dsimp only at h
         cases h)
  -- escaped byte in literal state
  all_goals
    cases rest with
    | nil =>
      dsimp only at h
      cases h
    | cons e rest2 =>
      dsimp only at h ⊢
      rw [consumeByte_single0] at h ⊢
      split at h
      · rename_i hp
        dsimp only at h
        cases h
        have hlt : pos < q.length := by
          by_contra hge
          rw [getq_none q pos (by omega)] at hp
          exact absurd hp Bool.false_ne_true
        rw [getq_lt q s bSlash pos hlt, if_pos hp]
        dsimp only
        exact ⟨by omega, rfl, rfl⟩
      · dsimp only at h
        cases h


/-- The main loop on a single candidate transfers a true verdict to the
candidate extended by a separator and an arbitrary suffix. -/
theorem matchLoop_single_ext (q s : List Byte) :
    ∀ fuel np st qc pos r, pos ≤ q.length →
      matchLoop fuel np st qc [⟨0, q, pos⟩] [r] = .ok [true] →
      matchLoop fuel np st qc [⟨0, q ++ bSlash :: s, pos⟩] [r] = .ok [true] := by
  intro fuel
  induction fuel with
  | zero =>
    intro np st qc pos r hpos h
    cases h
  | succ n ih =>
    intro np st qc pos r hpos h
    cases np with
    | nil =>
      rw [matchLoop] at h ⊢
      rw [finishActive, finishActive] at h ⊢
      simp only [List.set_cons_zero] at h ⊢
      have hv : exhaustVerdict st ⟨0, q, pos⟩ = true := by
        simp only [Except.ok.injEq, List.cons.injEq, and_true] at h
        exact h
      have hv2 : exhaustVerdict st ⟨0, q ++ bSlash :: s, pos⟩ = true := by
        cases st
        case Literal =>
          rw [exhaustVerdict] at hv ⊢
          dsimp only [ActiveString.currentByte] at hv ⊢
          by_cases hlt : pos < q.length
          · rw [getq_lt q s bSlash pos hlt]
            exact hv
          · rw [show pos = q.length by omega, getq_end q s bSlash]
            exact beq_self_eq_true bSlash
        all_goals rfl
      rw [hv2]
    | cons c rest =>
      rw [matchLoop] at h ⊢
      cases hs : loopStep c rest st qc [⟨0, q, pos⟩] [r] with
      | error e =>
        rw [hs] at h
        cases h
      | ok t =>
        obtain ⟨next, st2, qc2, act, res⟩ := t
        rw [hs] at h
        dsimp only at h
        rcases loopStep_single_shape q c rest st qc pos r next st2 qc2 act res
            hs with ⟨ha, hr⟩ | ⟨pos2, ha, hr⟩
        · subst ha
          subst hr
          cases n with
          | zero => cases h
          | succ k =>
            cases next with
            | nil =>
              rw [matchLoop, finishActive] at h
              cases h
            | cons d ds =>
              rw [matchLoop] at h
              cases h
        · subst ha
          subst hr
          obtain ⟨hp2, hr2, hstep⟩ := loopStep_single_ext q s c rest st qc pos
            r r next st2 qc2 pos2 hpos hs
          rw [hstep]
          dsimp only
          exact ih next st2 qc2 pos2 r hp2 h

/-- C4: directory-prefix semantics.  For a pattern p with no trailing
slash, if match_batch reports that p matches the path q, then p also
matches q ++ "/" ++ s for every suffix s.  The proof shows every byte the
machine reads on the accepting run lies within q, and that the pattern
exhaustion rule treats the end of q and a following separator alike; the
no-trailing-slash hypothesis of the claim is recorded but not needed, as
pattern normalisation strips a trailing slash anyway. -/
theorem c4_directory_prefix (p q s : List Byte)
    ( _hnt : p.getLast? ≠ some bSlash)
    (h : match_batch p [q] = .ok [true]) :
    match_batch p [q ++ bSlash :: s] = .ok [true] := by
  rw [match_batch_singleton_loop] at h ⊢
  exact matchLoop_single_ext q s _ _ .Literal 0 0 false (by omega) h

/-- Witness for C4 on a concrete pattern, path and suffix. -/
theorem c4_witness :
    (bs "src").getLast? ≠ some bSlash ∧
      match_batch (bs "src") [bs "src" ++ bSlash :: bs "x"] = .ok [true] :=
  ⟨by decide,
    c4_directory_prefix (bs "src") (bs "src") (bs "x") (by decide) (by decide)⟩


/-! ### Cross-candidate independence: list bookkeeping -/

/-- Setting an entry to its current value leaves the list unchanged. -/
theorem set_self {α : Type} : ∀ (l : List α) (k : Nat) (a : α),
    l.get? k = some a → l.set k a = l := by
  intro l
  induction l with
  | nil => intro k a h; rfl
  | cons x t ih =>
    intro k a h
    cases k with
    | zero =>
      rw [List.get?_cons_zero] at h
      cases h
      rfl
    | succ m =>
      rw [List.get?_cons_succ] at h
      rw [List.set_cons_succ, ih m a h]

/-- Members of a list after a set come from the list or are the new
value. -/
theorem mem_of_mem_set {α : Type} : ∀ (l : List α) (k : Nat) (y a : α),
    a ∈ l.set k y → a ∈ l ∨ a = y := by
  intro l
  induction l with
  | nil => intro k y a h; cases h
  | cons x t ih =>
    intro k y a h
    cases k with
    | zero =>
      rw [List.set_cons_zero] at h
      rcases List.mem_cons.mp h with h1 | h1
      · exact Or.inr h1
      · exact Or.inl (List.mem_cons_of_mem x h1)
    | succ m =>
      rw [List.set_cons_succ] at h
      rcases List.mem_cons.mp h with h1 | h1
      · exact Or.inl (h1 ▸ List.mem_cons_self x t)
      · rcases ih m y a h1 with h2 | h2
        · exact Or.inl (List.mem_cons_of_mem x h2)
        · exact Or.inr h2

/-- Mapping commutes with removing an index. -/
theorem map_eraseIdx {α β : Type} (f : α → β) :
    ∀ (l : List α) (k : Nat), (l.eraseIdx k).map f = (l.map f).eraseIdx k := by
  intro l
  induction l with
  | nil => intro k; rfl
  | cons x t ih =>
    intro k
    cases k with
    | zero => rfl
    | succ m =>
      rw [List.eraseIdx_cons_succ, List.map_cons, List.map_cons,
        List.eraseIdx_cons_succ, ih m]

/-- In a duplicate-free list the entry at an index does not survive the
removal of that index. -/
theorem not_mem_eraseIdx_of_nodup {α : Type} (l : List α) (k : Nat)
    (h : l.Nodup) (hk : k < l.length) : l[k] ∉ l.eraseIdx k := by
  rw [List.eraseIdx_eq_take_drop_succ]
  intro hm
  conv at h => rw [← List.take_append_drop k l, ← List.get_drop_eq_drop l k hk]
  rw [List.nodup_append] at h
  obtain ⟨h1, h2, h3⟩ := h
  rw [List.mem_append] at hm
  cases hm with
  | inl hz => exact h3 hz (List.mem_cons_self _ _)
  | inr hz => exact (List.nodup_cons.mp h2).1 hz

/-- The last entry of a list is the last entry of any non-empty final
segment. -/
theorem getLast?_drop_eq {α : Type} (l : List α) (n : Nat)
    (h : l.drop n ≠ []) : l.getLast? = (l.drop n).getLast? := by
  conv_lhs => rw [← List.take_append_drop n l]
  exact List.getLast?_append_of_ne_nil _ h

/-- Swap-removal at a valid index is a permutation of ordinary removal. -/
theorem swapRemove_perm (l : List ActiveString) (k : Nat)
    (hk : k < l.length) : (swapRemove l k).Perm (l.eraseIdx k) := by
  rw [swapRemove]
  cases hl : l.getLast? with
  | none =>
    rw [List.getLast?_eq_none_iff] at hl
    subst hl
    simp at hk
  | some last =>
    dsimp only
    rw [List.eraseIdx_eq_take_drop_succ]
    rw [List.set_eq_take_cons_drop last hk]
    by_cases hD : l.drop (k + 1) = []
    · rw [hD, List.dropLast_concat]
      rw [List.append_nil]
    · have hgl : (l.drop (k + 1)).getLast? = some last := by
        rw [← getLast?_drop_eq l (k + 1) hD]
        exact hl
      have hDdec : l.drop (k + 1) = (l.drop (k + 1)).dropLast ++ [last] := by
        have := List.dropLast_concat_getLast hD
        rw [List.getLast?_eq_getLast _ hD] at hgl
        cases hgl
        exact this.symm
      rw [List.dropLast_append_of_ne_nil _ (List.cons_ne_nil last _)]
      rw [List.dropLast_cons_of_ne_nil hD]
      refine List.Perm.append_left _ ?_
      conv_rhs => rw [hDdec]
      exact (List.perm_append_singleton last _).symm

/-- Members survive a swap-removal only if they were members before. -/
theorem mem_of_mem_swapRemove (l : List ActiveString) (k : Nat)
    (hk : k < l.length) (a : ActiveString) (ha : a ∈ swapRemove l k) :
    a ∈ l :=
  (List.eraseIdx_sublist l k).mem ((swapRemove_perm l k hk).mem_iff.mp ha)

/-- Swap-removal preserves duplicate-freeness of the indices. -/
theorem swapRemove_idx_nodup (l : List ActiveString) (k : Nat)
    (hk : k < l.length)
    (h : (l.map ActiveString.originalIdx).Nodup) :
    ((swapRemove l k).map ActiveString.originalIdx).Nodup := by
  refine ((swapRemove_perm l k hk).map _).nodup_iff.mpr ?_
  rw [map_eraseIdx]
  exact h.sublist (List.eraseIdx_sublist _ k)

/-- After swap-removing a valid index from a duplicate-free list, the
removed original index is gone. -/
theorem swapRemove_idx_gone (l : List ActiveString) (k : Nat)
    (hk : k < l.length)
    (h : (l.map ActiveString.originalIdx).Nodup) :
    ∀ a ∈ swapRemove l k, a.originalIdx ≠ l[k].originalIdx := by
  intro a ha heq
  have hmem : a.originalIdx ∈ (swapRemove l k).map ActiveString.originalIdx :=
    List.mem_map_of_mem _ ha
  have hperm := ((swapRemove_perm l k hk).map ActiveString.originalIdx).mem_iff.mp hmem
  rw [map_eraseIdx] at hperm
  have hk2 : k < (l.map ActiveString.originalIdx).length := by
    rw [List.length_map]; exact hk
  have hnot := not_mem_eraseIdx_of_nodup (l.map ActiveString.originalIdx) k h hk2
  rw [heq] at hperm
  have hgetm : (l.map ActiveString.originalIdx)[k] = l[k].originalIdx := by
    rw [List.getElem_map]
  rw [hgetm] at hnot
  exact hnot hperm


/-- Two successful anchor walks of the same pattern suffix stop at the
same pattern position, regardless of the candidates walked. -/
theorem walkSegGo_stop_det (B1 B2 : List Byte) :
    ∀ fuel1 ps fuel2 i1 i2 p1 j1 p2 j2, ps.length ≤ fuel1 → ps.length ≤ fuel2 →
      walkSegGo B1 fuel1 ps i1 = .ok (true, p1, j1) →
      walkSegGo B2 fuel2 ps i2 = .ok (true, p2, j2) →
      p1 = p2 := by
  intro fuel1
  induction fuel1 with
  | zero =>
    intro ps fuel2 i1 i2 p1 j1 p2 j2 h1n h2n h1 h2
    cases ps with
    | nil =>
      rw [walkSegGo] at h1 h2
      cases h1
      cases h2
      rfl
    | cons c rest => simp at h1n
  | succ n ih =>
    intro ps fuel2 i1 i2 p1 j1 p2 j2 h1n h2n h1 h2
    cases ps with
    | nil =>
      rw [walkSegGo] at h1 h2
      cases h1
      cases h2
      rfl
    | cons c rest =>
      obtain ⟨m2, rfl⟩ : ∃ m2, fuel2 = m2 + 1 := by
        cases fuel2 with
        | zero => simp at h2n
        | succ k => exact ⟨k, rfl⟩
      simp only [List.length_cons] at h1n h2n
      rw [walkSegGo.eq_def] at h1 h2
      dsimp only at h1 h2
      split_ifs at h1 h2 with hbs hst hlb hq hr1 hr2a hr2b
      · -- backslash
        cases rest with
        | nil => cases h1
        | cons e rest2 =>
          simp only [List.length_cons] at h1n h2n
          dsimp only at h1 h2
          split_ifs at h1 h2 with hrA hrB hrC
          · exact ih rest2 m2 (i1 + 1) (i2 + 1) p1 j1 p2 j2
              (by omega) (by omega) h1 h2
          · cases h2
          · cases h1
          · cases h1
      · -- star: both stop at the star
        cases h1
        cases h2
        rfl
      · -- charset
        cases hcs : extractCharset (c :: rest) with
        | error e => rw [hcs] at h1; cases h1
        | ok t =>
          obtain ⟨cs2, after2⟩ := t
          rw [hcs] at h1 h2
          dsimp only at h1 h2
          have hafter := extractCharset_len _ _ _ hcs
          simp only [List.length_cons] at hafter
          cases hb1 : B1.get? i1 with
          | none => rw [hb1] at h1; cases h1
          | some b1 =>
            rw [hb1] at h1
            dsimp only at h1
            split_ifs at h1 with hm1
            · cases hb2 : B2.get? i2 with
              | none => rw [hb2] at h2; cases h2
              | some b2 =>
                rw [hb2] at h2
                dsimp only at h2
                split_ifs at h2 with hm2
                · exact ih after2 m2 (i1 + 1) (i2 + 1) p1 j1 p2 j2
                    (by omega) (by omega) h1 h2
                · cases h2
            · cases h1
      · -- question mark
        cases hb1 : B1.get? i1 with
        | none => rw [hb1] at h1; cases h1
        | some b1 =>
          rw [hb1] at h1
          dsimp only at h1
          split_ifs at h1 with hm1
          · cases hb2 : B2.get? i2 with
            | none => rw [hb2] at h2; cases h2
            | some b2 =>
              rw [hb2] at h2
              dsimp only at h2
              split_ifs at h2 with hm2
              · exact ih rest m2 (i1 + 1) (i2 + 1) p1 j1 p2 j2
                  (by omega) (by omega) h1 h2
              · cases h2
          · cases h1
      · -- literal byte, both reads succeed
        exact ih rest m2 (i1 + 1) (i2 + 1) p1 j1 p2 j2
          (by omega) (by omega) h1 h2
      · cases h2
      · cases h1
      · cases h1

/-- The walk stop is never a longer pattern suffix than the input. -/
theorem walkSegGo_stop_le (B : List Byte) :
    ∀ fuel ps i m p2 j, walkSegGo B fuel ps i = .ok (m, p2, j) →
      p2.length ≤ ps.length := by
  intro fuel
  induction fuel with
  | zero =>
    intro ps i m p2 j h
    cases ps with
    | nil => rw [walkSegGo] at h; cases h; exact le_refl _
    | cons c rest =>
      rw [walkSegGo.eq_def] at h
      dsimp only at h
      cases h
      exact le_refl _
  | succ n ih =>
    intro ps i m p2 j h
    cases ps with
    | nil => rw [walkSegGo] at h; cases h; exact le_refl _
    | cons c rest =>
      rw [walkSegGo.eq_def] at h
      dsimp only at h
      split_ifs at h with hbs hst hlb hq hr
      · cases rest with
        | nil => cases h
        | cons e rest2 =>
          dsimp only at h
          split_ifs at h with hr2
          · have := ih _ _ _ _ _ h
            simp only [List.length_cons] at this ⊢
            omega
          · cases h
            simp only [List.length_cons]
            omega
      · cases h; exact le_refl _
      · cases hcs : extractCharset (c :: rest) with
        | error e => rw [hcs] at h; cases h
        | ok t =>
          obtain ⟨cs2, after2⟩ := t
          rw [hcs] at h
          dsimp only at h
          have hafter := extractCharset_len _ _ _ hcs
          cases hb : B.get? i with
          | none =>
            rw [hb] at h
            cases h
            omega
          | some b =>
            rw [hb] at h
            dsimp only at h
            split_ifs at h
            · have := ih _ _ _ _ _ h
              omega
            · cases h
              omega
      · cases hb : B.get? i with
        | none =>
          rw [hb] at h
          cases h
          simp only [List.length_cons]
          omega
        | some b =>
          rw [hb] at h
          dsimp only at h
          split_ifs at h
          · have := ih _ _ _ _ _ h
            simp only [List.length_cons] at this ⊢
            omega
          · cases h
            simp only [List.length_cons]
            omega
      · have := ih _ _ _ _ _ h
        simp only [List.length_cons] at this ⊢
        omega
      · cases h
        exact le_refl _

/-- A successful walk of a pattern suffix that does not begin with a star
stops strictly inside the suffix. -/
theorem walkSegGo_true_stop_lt (B : List Byte) (c : Byte) (rest : List Byte)
    (hc : c ≠ bStar) :
    ∀ fuel i p2 j, walkSegGo B fuel (c :: rest) i = .ok (true, p2, j) →
      p2.length ≤ rest.length := by
  intro fuel i p2 j h
  cases fuel with
  | zero =>
    rw [walkSegGo.eq_def] at h
    dsimp only at h
    cases h
  | succ n =>
    rw [walkSegGo.eq_def] at h
    dsimp only at h
    split_ifs at h with hbs hlb hq hr
    · cases rest with
      | nil => cases h
      | cons e rest2 =>
        dsimp only at h
        split_ifs at h with hr2
        · have := walkSegGo_stop_le B n rest2 (i + 1) true p2 j h
          simp only [List.length_cons]
          omega
        · cases h
    · cases hcs : extractCharset (c :: rest) with
      | error e => rw [hcs] at h; cases h
      | ok t =>
        obtain ⟨cs2, after2⟩ := t
        rw [hcs] at h
        dsimp only at h
        have hafter := extractCharset_len _ _ _ hcs
        simp only [List.length_cons] at hafter
        cases hb : B.get? i with
        | none => rw [hb] at h; cases h
        | some b =>
          rw [hb] at h
          dsimp only at h
          split_ifs at h
          · have := walkSegGo_stop_le B n after2 (i + 1) true p2 j h
            omega
          · cases h
    · cases hb : B.get? i with
      | none => rw [hb] at h; cases h
      | some b =>
        rw [hb] at h
        dsimp only at h
        split_ifs at h
        · exact walkSegGo_stop_le B n rest (i + 1) true p2 j h
        · cases h
    · exact walkSegGo_stop_le B n rest (i + 1) true p2 j h
    · cases h

/-- A successful trial loop contains a successful walk stopping at the
returned pattern suffix, with no bound bookkeeping. -/
theorem tryFrom_success_walk2 (ps : List Byte) (g : Bool) (rc : Nat)
    (B : List Byte) (sp : Nat) :
    ∀ rem tryPos term np pp,
      tryFrom ps g rc B sp rem tryPos term = .ok (some (np, pp)) →
      ∃ ts, walkSegGo B ps.length ps ts = .ok (true, pp, np) := by
  intro rem
  induction rem with
  | zero =>
    intro tryPos term np pp h
    rw [tryFrom] at h
    cases h
  | succ m ih =>
    intro tryPos term np pp h
    rw [tryFrom] at h
    dsimp only at h
    cases hw : walkSeg ps B tryPos with
    | error e =>
      rw [hw] at h
      dsimp only at h
      split_ifs at h
      all_goals try (cases h; done)
      all_goals exact ih (tryPos + 1) _ np pp h
    | ok t =>
      obtain ⟨matched, pstop, sstop⟩ := t
      rw [hw] at h
      dsimp only at h
      split_ifs at h
      all_goals try (cases h; done)
      all_goals try
        (have hm : matched = true := by assumption
         subst hm
         cases h
         exact ⟨tryPos, hw⟩)
      all_goals exact ih (tryPos + 1) _ np pp h

/-- The finish block does not touch result entries whose index is not
active. -/
theorem finishActive_dead (st : PatternState) :
    ∀ (A : List ActiveString) (R : List Bool) (i : Nat),
      (∀ a ∈ A, a.originalIdx ≠ i) →
      (finishActive st A R).get? i = R.get? i := by
  intro A
  induction A with
  | nil => intro R i _; rfl
  | cons a rest ih =>
    intro R i hno
    rw [finishActive]
    rw [ih _ i (fun b hb => hno b (List.mem_cons_of_mem a hb))]
    exact List.get?_set_ne _ _ (hno a (List.mem_cons_self a rest))

/-- The finish block records exactly the residual verdict of an active
member, under duplicate-free indices. -/
theorem finishActive_proj (st : PatternState) :
    ∀ (A : List ActiveString) (R : List Bool) (x : ActiveString),
      x ∈ A → (A.map ActiveString.originalIdx).Nodup →
      x.originalIdx < R.length →
      (finishActive st A R).get? x.originalIdx =
        some (exhaustVerdict st x) := by
  intro A
  induction A with
  | nil => intro R x hx; cases hx
  | cons a rest ih =>
    intro R x hx hnd hlt
    rw [List.map_cons, List.nodup_cons] at hnd
    rw [finishActive]
    rcases List.mem_cons.mp hx with hx1 | hx1
    · subst hx1
      rw [finishActive_dead st rest _ x.originalIdx ?_]
      · exact List.get?_set_eq_of_lt _ hlt
      · intro b hb heq
        exact hnd.1 (heq ▸ List.mem_map_of_mem _ hb)
    · have hne : a.originalIdx ≠ x.originalIdx := by
        intro heq
        exact hnd.1 (heq ▸ List.mem_map_of_mem _ hx1)
      rw [ih _ x hx1 hnd.2 (by rw [List.length_set]; exact hlt)]


/-- Setting an entry does not affect the tail beyond it. -/
theorem set_drop_succ {α : Type} : ∀ (l : List α) (k : Nat) (y : α),
    (l.set k y).drop (k + 1) = l.drop (k + 1) := by
  intro l
  induction l with
  | nil => intro k y; rfl
  | cons x t ih =>
    intro k y
    cases k with
    | zero => rfl
    | succ m =>
      rw [List.set_cons_succ]
      rw [List.drop_succ_cons, List.drop_succ_cons]
      exact ih m y

/-- Setting an entry does not affect the prefix before it. -/
theorem set_take {α : Type} : ∀ (l : List α) (k : Nat) (y : α),
    (l.set k y).take k = l.take k := by
  intro l
  induction l with
  | nil => intro k y; rfl
  | cons x t ih =>
    intro k y
    cases k with
    | zero => rfl
    | succ m =>
      rw [List.set_cons_succ, List.take_cons_succ, List.take_cons_succ, ih m]

/-- The prefix through a set entry is the old prefix plus the new value. -/
theorem set_take_succ {α : Type} : ∀ (l : List α) (k : Nat) (y : α),
    k < l.length → (l.set k y).take (k + 1) = l.take k ++ [y] := by
  intro l
  induction l with
  | nil => intro k y h; simp at h
  | cons x t ih =>
    intro k y h
    cases k with
    | zero => rfl
    | succ m =>
      rw [List.set_cons_succ, List.take_cons_succ, List.take_cons_succ,
        ih m y (by simp at h; omega)]
      rfl

/-- Swap-removal of a non-empty list drops one element. -/
theorem swapRemove_length (A : List ActiveString) (k : Nat) (h : A ≠ []) :
    (swapRemove A k).length = A.length - 1 := by
  rw [swapRemove]
  cases hl : A.getLast? with
  | none =>
    rw [List.getLast?_eq_none_iff] at hl
    exact absurd hl h
  | some last =>
    dsimp only
    rw [List.length_dropLast, List.length_set]

/-- A list from a valid index onward starts with the entry there. -/
theorem get_cons_drop2 {α : Type} (l : List α) (k : Nat) (s : α)
    (h : l.get? k = some s) : l.drop k = s :: l.drop (k + 1) := by
  rw [List.get?_eq_getElem?] at h
  obtain ⟨hk, heq⟩ := List.getElem?_eq_some.mp h
  rw [← List.get_drop_eq_drop l k hk]
  rw [show l[k] = s from heq]

/-- In a duplicate-free list the entry at an index does not recur later. -/
theorem nodup_get_not_mem_drop {α : Type} (l : List α) (k : Nat)
    (h : l.Nodup) (hk : k < l.length) : l[k] ∉ l.drop (k + 1) := by
  conv at h => rw [← List.take_append_drop k l, ← List.get_drop_eq_drop l k hk]
  rw [List.nodup_append] at h
  exact (List.nodup_cons.mp h.2.1).1

/-- The last entry lies in every final segment reaching it. -/
theorem getLast_mem_drop {α : Type} (l : List α) (k : Nat) (last : α)
    (hl : l.getLast? = some last) (hk : k < l.length) : last ∈ l.drop k := by
  have hne : l.drop k ≠ [] := by
    rw [Ne, List.drop_eq_nil_iff]
    omega
  rw [getLast?_drop_eq l k hne] at hl
  exact List.mem_of_mem_getLast? hl

/-- Swap-removal keeps the prefix before the removed index. -/
theorem swapRemove_take (A : List ActiveString) (k : Nat)
    (hk : k < A.length) : (swapRemove A k).take k = A.take k := by
  rw [swapRemove]
  cases hl : A.getLast? with
  | none =>
    rw [List.getLast?_eq_none_iff] at hl
    subst hl
    simp at hk
  | some last =>
    dsimp only
    rw [List.dropLast_eq_take, List.take_take, List.length_set]
    rw [show min k (A.length - 1) = k by omega]
    exact set_take A k last

/-- The unprocessed region after a swap-removal consists of elements from
the old unprocessed region. -/
theorem mem_swapRemove_drop (A : List ActiveString) (k : Nat)
    (hk : k < A.length) (a : ActiveString)
    (ha : a ∈ (swapRemove A k).drop k) : a ∈ A.drop k := by
  rw [swapRemove] at ha
  cases hl : A.getLast? with
  | none =>
    rw [List.getLast?_eq_none_iff] at hl
    subst hl
    simp at hk
  | some last =>
    rw [hl] at ha
    dsimp only at ha
    rw [List.set_eq_take_cons_drop last hk] at ha
    by_cases hD : A.drop (k + 1) = []
    · rw [hD, List.dropLast_concat] at ha
      rw [List.drop_take] at ha
      simp at ha
    · rw [List.dropLast_append_of_ne_nil _ (List.cons_ne_nil last _)] at ha
      rw [List.dropLast_cons_of_ne_nil hD] at ha
      rw [List.drop_left' (List.length_take_of_le (le_of_lt hk))] at ha
      rcases List.mem_cons.mp ha with h1 | h1
      · subst h1
        exact getLast_mem_drop A k a hl hk
      · have h2 : a ∈ A.drop (k + 1) :=
          (List.dropLast_sublist _).subset h1
        have h3 : k < A.length := hk
        obtain ⟨hk2, heq⟩ := List.getElem?_eq_some.mp
          (List.getElem?_eq_getElem (l := A) (n := k) h3)
        rw [← List.get_drop_eq_drop A k hk]
        exact List.mem_cons_of_mem _ h2


/-- Elements strictly after the removed index stay in the unprocessed
region of a swap-removal. -/
theorem mem_swapRemove_drop_sup (A : List ActiveString) (k : Nat)
    (hk : k < A.length) (a : ActiveString) (ha : a ∈ A.drop (k + 1)) :
    a ∈ (swapRemove A k).drop k := by
  have hD : A.drop (k + 1) ≠ [] := by
    intro hc
    rw [hc] at ha
    cases ha
  rw [swapRemove]
  cases hl : A.getLast? with
  | none =>
    rw [List.getLast?_eq_none_iff] at hl
    subst hl
    simp at hk
  | some last =>
    dsimp only
    rw [List.set_eq_take_cons_drop last hk]
    rw [List.dropLast_append_of_ne_nil _ (List.cons_ne_nil last _)]
    rw [List.dropLast_cons_of_ne_nil hD]
    rw [List.drop_left' (List.length_take_of_le (le_of_lt hk))]
    have hglD : (A.drop (k + 1)).getLast? = some last := by
      rw [← getLast?_drop_eq A (k + 1) hD]
      exact hl
    rw [List.getLast?_eq_getLast _ hD] at hglD
    have hdec := List.dropLast_concat_getLast hD
    cases hglD
    rw [← hdec] at ha
    rcases List.mem_append.mp ha with h1 | h1
    · exact List.mem_cons_of_mem _ h1
    · rw [List.mem_singleton] at h1
      subst h1
      exact List.mem_cons_self _ _

/-- Under duplicate-free indices, elements after an index carry a
different original index from the element there. -/
theorem idx_ne_of_drop (A : List ActiveString) (k : Nat) (s x : ActiveString)
    (hnd : (A.map ActiveString.originalIdx).Nodup) (hg : A.get? k = some s)
    (hx : x ∈ A.drop (k + 1)) : x.originalIdx ≠ s.originalIdx := by
  intro heq
  rw [List.get?_eq_getElem?] at hg
  obtain ⟨hk, hsk⟩ := List.getElem?_eq_some.mp hg
  have hk2 : k < (A.map ActiveString.originalIdx).length := by
    rw [List.length_map]; exact hk
  have hmem : x.originalIdx ∈ (A.map ActiveString.originalIdx).drop (k + 1) := by
    rw [← List.map_drop]
    exact List.mem_map_of_mem _ hx
  have hnot := nodup_get_not_mem_drop (A.map ActiveString.originalIdx) k hnd hk2
  rw [List.getElem_map, hsk] at hnot
  rw [heq] at hmem
  exact hnot hmem


/-- Master description of the consume-byte sweep: the surviving indices
stay duplicate-free and drawn from the input, untouched result entries
keep their values, the processed prefix is preserved, and every
unprocessed candidate either advances (when the predicate accepts its
current byte) or is removed with its result entry set false. -/
theorem consumeByteGo_proj (pred : Option Byte → Bool) :
    ∀ rem k A R A2 R2,
      rem + k = A.length →
      (A.map ActiveString.originalIdx).Nodup →
      consumeByteGo pred rem k A R = (A2, R2) →
      (((A2.map ActiveString.originalIdx).Nodup ∧
        R2.length = R.length ∧
        (∀ a ∈ A2, ∃ b ∈ A, b.originalIdx = a.originalIdx) ∧
        (∀ i : Nat, (∀ a ∈ A.drop k, a.originalIdx ≠ i) →
          R2.get? i = R.get? i) ∧
        (∀ y ∈ A.take k, y ∈ A2)) ∧
       (∀ x, x ∈ A.drop k → x.originalIdx < R.length →
         (pred x.currentByte = true →
           x.advance ∈ A2 ∧ R2.get? x.originalIdx = R.get? x.originalIdx) ∧
         (pred x.currentByte = false →
           (∀ a ∈ A2, a.originalIdx ≠ x.originalIdx) ∧
           R2.get? x.originalIdx = some false))) := by
  intro rem
  induction rem with
  | zero =>
    intro k A R A2 R2 hinv hnd h
    rw [consumeByteGo] at h
    cases h
    have hk : k = A.length := by omega
    subst hk
    refine ⟨⟨hnd, rfl, fun a ha => ⟨a, ha, rfl⟩, fun i _ => rfl, ?_⟩, ?_⟩
    · rw [List.take_length]
      exact fun y hy => hy
    · intro x hx
      rw [List.drop_length] at hx
      cases hx
  | succ rem ih =>
    intro k A R A2 R2 hinv hnd h
    rw [consumeByteGo] at h
    cases hg : A.get? k with
    | none =>
      exfalso
      rw [List.get?_eq_getElem?, List.getElem?_eq_none_iff] at hg
      omega
    | some s =>
      rw [hg] at h
      dsimp only at h
      have hk : k < A.length := by
        rw [List.get?_eq_getElem?] at hg
        exact (List.getElem?_eq_some.mp hg).1
      have hsk : A[k] = s := by
        rw [List.get?_eq_getElem?] at hg
        exact (List.getElem?_eq_some.mp hg).2
      have hdropcons : A.drop k = s :: A.drop (k + 1) := get_cons_drop2 A k s hg
      have hsmem : s ∈ A := List.drop_subset k A (by
        rw [hdropcons]; exact List.mem_cons_self s _)
      by_cases hp : pred s.currentByte
      · rw [if_pos hp] at h
        have hmapset : (A.set k s.advance).map ActiveString.originalIdx =
            A.map ActiveString.originalIdx := by
          rw [List.map_set]
          exact set_self _ k _ (by rw [List.get?_map, hg]; rfl)
        obtain ⟨⟨ihnd, ihlen, ihsub, ihR, ihtake⟩, ihmem⟩ :=
          ih (k + 1) (A.set k s.advance) R A2 R2
            (by rw [List.length_set]; omega) (by rw [hmapset]; exact hnd) h
        have hsetdrop : (A.set k s.advance).drop (k + 1) = A.drop (k + 1) :=
          set_drop_succ A k s.advance
        have hsettake : (A.set k s.advance).take (k + 1) =
            A.take k ++ [s.advance] := set_take_succ A k s.advance hk
        refine ⟨⟨ihnd, ihlen, ?_, ?_, ?_⟩, ?_⟩
        · intro a ha
          obtain ⟨b, hb, hbe⟩ := ihsub a ha
          rcases mem_of_mem_set _ _ _ _ hb with h1 | h1
          · exact ⟨b, h1, hbe⟩
          · subst h1
            exact ⟨s, hsmem, hbe⟩
        · intro i hno
          refine ihR i ?_
          intro a ha
          rw [hsetdrop] at ha
          refine hno a ?_
          rw [hdropcons]
          exact List.mem_cons_of_mem s ha
        · intro y hy
          refine ihtake y ?_
          rw [hsettake]
          exact List.mem_append_left _ hy
        · intro x hx hxlt
          rw [hdropcons] at hx
          rcases List.mem_cons.mp hx with hx1 | hx1
          · subst hx1
            constructor
            · intro _
              constructor
              · refine ihtake x.advance ?_
                rw [hsettake]
                exact List.mem_append_right _ (List.mem_singleton.mpr rfl)
              · refine ihR x.originalIdx ?_
                intro a ha
                rw [hsetdrop] at ha
                exact idx_ne_of_drop A k x a hnd hg ha
            · intro hpf
              rw [hpf] at hp
              exact absurd hp Bool.false_ne_true
          · have hx2 : x ∈ (A.set k s.advance).drop (k + 1) := by
              rw [hsetdrop]; exact hx1
            exact ihmem x hx2 hxlt
      · rw [if_neg hp] at h
        have hAne : A ≠ [] := by
          intro hc
          subst hc
          simp at hk
        obtain ⟨⟨ihnd, ihlen, ihsub, ihR, ihtake⟩, ihmem⟩ :=
          ih k (swapRemove A k) (R.set s.originalIdx false) A2 R2
            (by rw [swapRemove_length A k hAne]; omega)
            (swapRemove_idx_nodup A k hk hnd) h
        have hpf : pred s.currentByte = false := by
          rw [Bool.eq_false_iff]
          exact hp
        refine ⟨⟨ihnd, ?_, ?_, ?_, ?_⟩, ?_⟩
        · rw [ihlen, List.length_set]
        · intro a ha
          obtain ⟨b, hb, hbe⟩ := ihsub a ha
          exact ⟨b, mem_of_mem_swapRemove A k hk b hb, hbe⟩
        · intro i hno
          have hsne : s.originalIdx ≠ i := by
            refine hno s ?_
            rw [hdropcons]
            exact List.mem_cons_self s _
          rw [ihR i ?_]
          · exact List.get?_set_ne _ _ hsne
          · intro a ha
            exact hno a (mem_swapRemove_drop A k hk a ha)
        · intro y hy
          refine ihtake y ?_
          rw [swapRemove_take A k hk]
          exact hy
        · intro x hx hxlt
          rw [hdropcons] at hx
          rcases List.mem_cons.mp hx with hx1 | hx1
          · subst hx1
            constructor
            · intro hpt
              rw [hpt] at hpf
              exact absurd hpf.symm Bool.false_ne_true
            · intro _
              constructor
              · intro a ha
                obtain ⟨b, hb, hbe⟩ := ihsub a ha
                have := swapRemove_idx_gone A k hk hnd b hb
                rw [hsk] at this
                rw [← hbe]
                exact this
              · rw [ihR x.originalIdx ?_]
                · exact List.get?_set_eq_of_lt _ hxlt
                · intro a ha
                  have hamem : a ∈ swapRemove A k :=
                    List.drop_subset k _ ha
                  have := swapRemove_idx_gone A k hk hnd a hamem
                  rw [hsk] at this
                  exact this
          · have hx2 : x ∈ (swapRemove A k).drop k :=
              mem_swapRemove_drop_sup A k hk x hx1
            have hxlt2 : x.originalIdx < (R.set s.originalIdx false).length := by
              rw [List.length_set]
              exact hxlt
            obtain ⟨hT, hF⟩ := ihmem x hx2 hxlt2
            constructor
            · intro hpt
              obtain ⟨hT1, hT2⟩ := hT hpt
              refine ⟨hT1, ?_⟩
              rw [hT2]
              exact List.get?_set_ne _ _ (Ne.symm (idx_ne_of_drop A k s x hnd hg hx1))
            · intro hpf2
              exact hF hpf2


/-- Master description of the wildcard-segment sweep: indices stay
duplicate-free and drawn from the input, untouched result entries keep
their values, the processed prefix survives, a recorded shared stop
persists, and every unprocessed candidate is advanced to the landing
position of its own trial loop (recording the common walk stop) or is
removed with its result entry set false; its trial loop cannot error when
the sweep succeeds. -/
theorem mwsGo_proj (ps : List Byte) (g : Bool) (rc : Nat) :
    ∀ rem k nIdx A R next2 A2 R2,
      rem + k = A.length →
      (A.map ActiveString.originalIdx).Nodup →
      (∀ pp, nIdx = some pp →
        ∃ B2 t2 j2, walkSegGo B2 ps.length ps t2 = .ok (true, pp, j2)) →
      mwsGo ps g rc rem k nIdx A R = .ok (next2, A2, R2) →
      (((A2.map ActiveString.originalIdx).Nodup ∧
        R2.length = R.length ∧
        (∀ a ∈ A2, ∃ b ∈ A, b.originalIdx = a.originalIdx) ∧
        (∀ i : Nat, (∀ a ∈ A.drop k, a.originalIdx ≠ i) →
          R2.get? i = R.get? i) ∧
        (∀ y ∈ A.take k, y ∈ A2) ∧
        (∀ pp, nIdx = some pp → next2 = some pp) ∧
        (∀ pp, next2 = some pp →
          ∃ B2 t2 j2, walkSegGo B2 ps.length ps t2 = .ok (true, pp, j2))) ∧
       (∀ x, x ∈ A.drop k → x.originalIdx < R.length →
         (∀ e, tryFrom ps g rc x.bytes x.position
             (x.bytes.length + 1 - x.position) x.position false =
             .error e → False) ∧
         (∀ np pp, tryFrom ps g rc x.bytes x.position
             (x.bytes.length + 1 - x.position) x.position false =
             .ok (some (np, pp)) →
           { x with position := np } ∈ A2 ∧
           R2.get? x.originalIdx = R.get? x.originalIdx ∧
           next2 = some pp) ∧
         (tryFrom ps g rc x.bytes x.position
             (x.bytes.length + 1 - x.position) x.position false = .ok none →
           (∀ a ∈ A2, a.originalIdx ≠ x.originalIdx) ∧
           R2.get? x.originalIdx = some false))) := by
  intro rem
  induction rem with
  | zero =>
    intro k nIdx A R next2 A2 R2 hinv hnd hni h
    rw [mwsGo] at h
    cases h
    have hk : k = A.length := by omega
    subst hk
    refine ⟨⟨hnd, rfl, fun a ha => ⟨a, ha, rfl⟩, fun i _ => rfl, ?_, ?_, ?_⟩, ?_⟩
    · rw [List.take_length]
      exact fun y hy => hy
    · exact fun pp hp => hp
    · exact hni
    · intro x hx
      rw [List.drop_length] at hx
      cases hx
  | succ rem ih =>
    intro k nIdx A R next2 A2 R2 hinv hnd hni h
    rw [mwsGo] at h
    cases hg : A.get? k with
    | none =>
      exfalso
      rw [List.get?_eq_getElem?, List.getElem?_eq_none_iff] at hg
      omega
    | some s =>
      rw [hg] at h
      dsimp only at h
      have hk : k < A.length := by
        rw [List.get?_eq_getElem?] at hg
        exact (List.getElem?_eq_some.mp hg).1
      have hsk : A[k] = s := by
        rw [List.get?_eq_getElem?] at hg
        exact (List.getElem?_eq_some.mp hg).2
      have hdropcons : A.drop k = s :: A.drop (k + 1) := get_cons_drop2 A k s hg
      have hsmem : s ∈ A := List.drop_subset k A (by
        rw [hdropcons]; exact List.mem_cons_self s _)
      cases hts : tryFrom ps g rc s.bytes s.position
          (s.bytes.length + 1 - s.position) s.position false with
      | error e =>
        rw [hts] at h
        cases h
      | ok o =>
        rw [hts] at h
        cases o with
        | none =>
          dsimp only at h
          have hAne : A ≠ [] := by
            intro hc
            subst hc
            simp at hk
          obtain ⟨⟨ihnd, ihlen, ihsub, ihR, ihtake, ihpp, ihinv⟩, ihmem⟩ :=
            ih k nIdx (swapRemove A k) (R.set s.originalIdx false) next2 A2 R2
              (by rw [swapRemove_length A k hAne]; omega)
              (swapRemove_idx_nodup A k hk hnd) hni h
          refine ⟨⟨ihnd, ?_, ?_, ?_, ?_, ihpp, ihinv⟩, ?_⟩
          · rw [ihlen, List.length_set]
          · intro a ha
            obtain ⟨b, hb, hbe⟩ := ihsub a ha
            exact ⟨b, mem_of_mem_swapRemove A k hk b hb, hbe⟩
          · intro i hno
            have hsne : s.originalIdx ≠ i := by
              refine hno s ?_
              rw [hdropcons]
              exact List.mem_cons_self s _
            rw [ihR i ?_]
            · exact List.get?_set_ne _ _ hsne
            · intro a ha
              exact hno a (mem_swapRemove_drop A k hk a ha)
          · intro y hy
            refine ihtake y ?_
            rw [swapRemove_take A k hk]
            exact hy
          · intro x hx hxlt
            rw [hdropcons] at hx
            rcases List.mem_cons.mp hx with hx1 | hx1
            · subst hx1
              refine ⟨?_, ?_, ?_⟩
              · intro e he
                rw [he] at hts
                cases hts
              · intro np pp hsome
                rw [hsome] at hts
                cases hts
              · intro _
                constructor
                · intro a ha
                  obtain ⟨b, hb, hbe⟩ := ihsub a ha
                  have := swapRemove_idx_gone A k hk hnd b hb
                  rw [hsk] at this
                  rw [← hbe]
                  exact this
                · rw [ihR x.originalIdx ?_]
                  · exact List.get?_set_eq_of_lt _ hxlt
                  · intro a ha
                    have hamem : a ∈ swapRemove A k :=
                      List.drop_subset k _ ha
                    have := swapRemove_idx_gone A k hk hnd a hamem
                    rw [hsk] at this
                    exact this
            · have hx2 : x ∈ (swapRemove A k).drop k :=
                mem_swapRemove_drop_sup A k hk x hx1
              have hxlt2 : x.originalIdx <
                  (R.set s.originalIdx false).length := by
                rw [List.length_set]
                exact hxlt
              obtain ⟨hE, hT, hF⟩ := ihmem x hx2 hxlt2
              refine ⟨hE, ?_, ?_⟩
              · intro np pp hsome
                obtain ⟨hT1, hT2, hT3⟩ := hT np pp hsome
                refine ⟨hT1, ?_, hT3⟩
                rw [hT2]
                exact List.get?_set_ne _ _
                  (Ne.symm (idx_ne_of_drop A k s x hnd hg hx1))
              · intro hnone
                exact hF hnone
        | some v =>
          obtain ⟨np0, pp0⟩ := v
          dsimp only at h
          have hwalk0 : ∃ ts, walkSegGo s.bytes ps.length ps ts =
              .ok (true, pp0, np0) :=
            tryFrom_success_walk2 ps g rc s.bytes s.position _ s.position
              false np0 pp0 hts
          have hni2 : (if nIdx.isNone then some pp0 else nIdx) = some pp0 := by
            cases hniv : nIdx with
            | none => rfl
            | some pp1 =>
              simp only [Option.isNone_some, Bool.false_eq_true, if_false]
              obtain ⟨B2, t2, j2, hw2⟩ := hni pp1 hniv
              obtain ⟨ts, hw1⟩ := hwalk0
              rw [walkSegGo_stop_det B2 s.bytes ps.length ps ps.length t2 ts
                pp1 j2 pp0 np0 (le_refl _) (le_refl _) hw2 hw1]
          rw [hni2] at h
          have hmapset : (A.set k { s with position := np0 }).map
              ActiveString.originalIdx = A.map ActiveString.originalIdx := by
            rw [List.map_set]
            exact set_self _ k _ (by rw [List.get?_map, hg]; rfl)
          obtain ⟨⟨ihnd, ihlen, ihsub, ihR, ihtake, ihpp, ihinv⟩, ihmem⟩ :=
            ih (k + 1) (some pp0) (A.set k { s with position := np0 }) R
              next2 A2 R2
              (by rw [List.length_set]; omega) (by rw [hmapset]; exact hnd)
              (by
                intro pp hpp
                cases hpp
                obtain ⟨ts, hw1⟩ := hwalk0
                exact ⟨s.bytes, ts, np0, hw1⟩) h
          have hsetdrop : (A.set k { s with position := np0 }).drop (k + 1) =
              A.drop (k + 1) := set_drop_succ A k _
          have hsettake : (A.set k { s with position := np0 }).take (k + 1) =
              A.take k ++ [{ s with position := np0 }] := set_take_succ A k _ hk
          have hnext2 : next2 = some pp0 := ihpp pp0 rfl
          refine ⟨⟨ihnd, ihlen, ?_, ?_, ?_, ?_, ihinv⟩, ?_⟩
          · intro a ha
            obtain ⟨b, hb, hbe⟩ := ihsub a ha
            rcases mem_of_mem_set _ _ _ _ hb with h1 | h1
            · exact ⟨b, h1, hbe⟩
            · subst h1
              exact ⟨s, hsmem, hbe⟩
          · intro i hno
            refine ihR i ?_
            intro a ha
            rw [hsetdrop] at ha
            refine hno a ?_
            rw [hdropcons]
            exact List.mem_cons_of_mem s ha
          · intro y hy
            refine ihtake y ?_
            rw [hsettake]
            exact List.mem_append_left _ hy
          · intro pp hpp
            rw [hpp] at hni2
            simp only [Option.isNone_some, Bool.false_eq_true, if_false,
              Option.some.injEq] at hni2
            rw [hni2]
            exact hnext2
          · intro x hx hxlt
            rw [hdropcons] at hx
            rcases List.mem_cons.mp hx with hx1 | hx1
            · subst hx1
              refine ⟨?_, ?_, ?_⟩
              · intro e he
                rw [he] at hts
                cases hts
              · intro np pp hsome
                rw [hsome] at hts
                cases hts
                refine ⟨?_, ?_, hnext2⟩
                · refine ihtake _ ?_
                  rw [hsettake]
                  exact List.mem_append_right _ (List.mem_singleton.mpr rfl)
                · refine ihR x.originalIdx ?_
                  intro a ha
                  rw [hsetdrop] at ha
                  exact idx_ne_of_drop A k x a hnd hg ha
              · intro hnone
                rw [hnone] at hts
                cases hts
            · have hx2 : x ∈ (A.set k { s with position := np0 }).drop (k + 1) := by
                rw [hsetdrop]
                exact hx1
              exact ihmem x hx2 hxlt


/-- match_wildcard_segment on a batch, described per candidate: structure
is preserved, untouched entries keep their values, and each candidate
follows its own trial loop, the shared next-pattern stop agreeing with the
stop of every successful candidate. -/
theorem mws_proj (c0 : Byte) (rest : List Byte) (g : Bool) (rc : Nat)
    (A : List ActiveString) (R : List Bool) (next : List Byte)
    (A2 : List ActiveString) (R2 : List Bool)
    (hnd : (A.map ActiveString.originalIdx).Nodup)
    (h : matchWildcardSegment (c0 :: rest) g rc A R = .ok (next, A2, R2)) :
    ((A2.map ActiveString.originalIdx).Nodup ∧
     R2.length = R.length ∧
     (∀ a ∈ A2, ∃ b ∈ A, b.originalIdx = a.originalIdx) ∧
     (∀ i : Nat, (∀ a ∈ A, a.originalIdx ≠ i) → R2.get? i = R.get? i) ∧
     (next = [] ∨ ∃ B2 t2 j2,
       walkSegGo B2 (c0 :: rest).length (c0 :: rest) t2 = .ok (true, next, j2))) ∧
    (∀ x, x ∈ A → x.originalIdx < R.length →
      (∀ e, tryFrom (c0 :: rest) g rc x.bytes x.position
          (x.bytes.length + 1 - x.position) x.position false = .error e →
        False) ∧
      (∀ np pp, tryFrom (c0 :: rest) g rc x.bytes x.position
          (x.bytes.length + 1 - x.position) x.position false =
          .ok (some (np, pp)) →
        { x with position := np } ∈ A2 ∧
        R2.get? x.originalIdx = R.get? x.originalIdx ∧
        next = pp) ∧
      (tryFrom (c0 :: rest) g rc x.bytes x.position
          (x.bytes.length + 1 - x.position) x.position false = .ok none →
        (∀ a ∈ A2, a.originalIdx ≠ x.originalIdx) ∧
        R2.get? x.originalIdx = some false)) := by
  rw [matchWildcardSegment] at h
  cases hm : mwsGo (c0 :: rest) g rc A.length 0 none A R with
  | error e =>
    rw [hm] at h
    cases h
  | ok t =>
    obtain ⟨n2, a2, r2⟩ := t
    rw [hm] at h
    dsimp only at h
    cases h
    obtain ⟨⟨ihnd, ihlen, ihsub, ihR, ihtake, ihpp, ihinv⟩, ihmem⟩ :=
      mwsGo_proj (c0 :: rest) g rc A.length 0 none A R n2 A2 R2
        (by omega) hnd (by intro pp hpp; cases hpp) hm
    refine ⟨⟨ihnd, ihlen, ihsub, ?_, ?_⟩, ?_⟩
    · intro i hno
      exact ihR i (by rw [List.drop_zero]; exact hno)
    · cases hn2 : n2 with
      | none => exact Or.inl rfl
      | some pp =>
        right
        exact ihinv pp hn2
    · intro x hx hxlt
      obtain ⟨hE, hT, hF⟩ := ihmem x (by rw [List.drop_zero]; exact hx) hxlt
      refine ⟨hE, ?_, hF⟩
      intro np pp hsome
      obtain ⟨hT1, hT2, hT3⟩ := hT np pp hsome
      refine ⟨hT1, hT2, ?_⟩
      rw [hT3]
      rfl


/-- consume_byte on a batch, described per candidate. -/
theorem consumeByte_step_proj (pred : Option Byte → Bool)
    (A A2 : List ActiveString) (R R2 : List Bool)
    (hnd : (A.map ActiveString.originalIdx).Nodup)
    (hcb : consumeByte pred A R = (A2, R2)) :
    ((A2.map ActiveString.originalIdx).Nodup ∧
     R2.length = R.length ∧
     (∀ a ∈ A2, ∃ b ∈ A, b.originalIdx = a.originalIdx) ∧
     (∀ i : Nat, (∀ a ∈ A, a.originalIdx ≠ i) → R2.get? i = R.get? i)) ∧
    (∀ x, x ∈ A → x.originalIdx < R.length →
      (pred x.currentByte = true →
        x.advance ∈ A2 ∧ R2.get? x.originalIdx = R.get? x.originalIdx) ∧
      (pred x.currentByte = false →
        (∀ a ∈ A2, a.originalIdx ≠ x.originalIdx) ∧
        R2.get? x.originalIdx = some false)) := by
  rw [consumeByte] at hcb
  obtain ⟨⟨pnd, plen, psub, pR, _⟩, pmem⟩ :=
    consumeByteGo_proj pred A.length 0 A R A2 R2 (by omega) hnd hcb
  refine ⟨⟨pnd, plen, psub, ?_⟩, ?_⟩
  · intro i hno
    exact pR i (by rw [List.drop_zero]; exact hno)
  · intro x hx hxlt
    exact pmem x (by rw [List.drop_zero]; exact hx) hxlt


/-- Master description of one loop iteration on a batch: the surviving
indices stay duplicate-free and drawn from the input, results keep their
length, untouched entries keep their values, the next pattern suffix
shrinks, and every candidate behaves exactly as it does alone: it either
survives at some position, the single-candidate iteration producing the
same machine state, or it is removed with its entry set false, the
single-candidate run answering false with any sufficient fuel. -/
theorem loopStep_proj (c0 : Byte) (rest : List Byte) (st : PatternState)
    (qc : Nat) (A : List ActiveString) (R : List Bool) (next : List Byte)
    (st2 : PatternState) (qc2 : Nat) (A2 : List ActiveString)
    (R2 : List Bool)
    (hnd : (A.map ActiveString.originalIdx).Nodup)
    (h : loopStep c0 rest st qc A R = .ok (next, st2, qc2, A2, R2)) :
    ((A2.map ActiveString.originalIdx).Nodup ∧
     R2.length = R.length ∧
     next.length ≤ rest.length ∧
     (∀ a ∈ A2, ∃ b ∈ A, b.originalIdx = a.originalIdx) ∧
     (∀ i : Nat, (∀ a ∈ A, a.originalIdx ≠ i) → R2.get? i = R.get? i)) ∧
    (∀ x, x ∈ A → x.originalIdx < R.length → ∀ r : Bool,
      (∃ pos2, (⟨x.originalIdx, x.bytes, pos2⟩ : ActiveString) ∈ A2 ∧
        R2.get? x.originalIdx = R.get? x.originalIdx ∧
        loopStep c0 rest st qc [⟨0, x.bytes, x.position⟩] [r] =
          .ok (next, st2, qc2, [⟨0, x.bytes, pos2⟩], [r])) ∨
      ((∀ a ∈ A2, a.originalIdx ≠ x.originalIdx) ∧
        R2.get? x.originalIdx = some false ∧
        (∀ n1 : Nat, 1 ≤ n1 →
          matchLoop (n1 + 1) (c0 :: rest) st qc [⟨0, x.bytes, x.position⟩]
            [r] = .ok [false]))) := by
  rw [loopStep.eq_def] at h
  split_ifs at h with hc1 hc2 hc3 hc4 hc5
  all_goals cases st
  all_goals dsimp only at h
  all_goals try
    (cases h
     refine ⟨⟨hnd, rfl, le_refl _, fun a ha => ⟨a, ha, rfl⟩,
       fun i _ => rfl⟩, ?_⟩
     intro x hx hxlt r
     exact Or.inl ⟨x.position, hx, rfl,
       by rw [loopStep.eq_def]; split_ifs; rfl⟩)
  all_goals try
    (cases h
     obtain ⟨⟨pnd, plen, psub, pR⟩, pmem⟩ :=
       consumeByte_step_proj (fun b => b == some bSlash) A _ R _ hnd rfl
     refine ⟨⟨pnd, plen, le_refl _, psub, pR⟩, ?_⟩
     intro x hx hxlt r
     obtain ⟨hT, hF⟩ := pmem x hx hxlt
     by_cases hpx : (fun b => b == some bSlash) x.currentByte = true
     · obtain ⟨hT1, hT2⟩ := hT hpx
       have hpx2 : (x.bytes.get? x.position == some bSlash) = true := hpx
       refine Or.inl ⟨x.position + 1, hT1, hT2, ?_⟩
       rw [loopStep.eq_def]
       split_ifs
       dsimp only
       rw [consumeByte_single0, if_pos hpx2]
     · rw [Bool.not_eq_true] at hpx
       obtain ⟨hF1, hF2⟩ := hF hpx
       have hpx2 : (x.bytes.get? x.position == some bSlash) = false := hpx
       refine Or.inr ⟨hF1, hF2, ?_⟩
       intro n1 hn1
       rw [matchLoop]
       rw [loopStep.eq_def]
       split_ifs
       dsimp only
       rw [consumeByte_single0,
         if_neg (by rw [hpx2]; exact Bool.false_ne_true)]
       dsimp only
       exact matchLoop_empty_active n1 _ _ _ _ hn1)
  all_goals try
    (cases h
     obtain ⟨⟨pnd, plen, psub, pR⟩, pmem⟩ :=
       consumeByte_step_proj (fun b => match b with | some b2 => !(b2 == bSlash) | none => false) A _ R _ hnd rfl
     refine ⟨⟨pnd, plen, le_refl _, psub, pR⟩, ?_⟩
     intro x hx hxlt r
     obtain ⟨hT, hF⟩ := pmem x hx hxlt
     by_cases hpx : (fun b => match b with | some b2 => !(b2 == bSlash) | none => false) x.currentByte = true
     · obtain ⟨hT1, hT2⟩ := hT hpx
       have hpx2 : (match x.bytes.get? x.position with | some b2 => !(b2 == bSlash) | none => false) = true := hpx
       refine Or.inl ⟨x.position + 1, hT1, hT2, ?_⟩
       rw [loopStep.eq_def]
       split_ifs
       dsimp only
       rw [consumeByte_single0, if_pos hpx2]
     · rw [Bool.not_eq_true] at hpx
       obtain ⟨hF1, hF2⟩ := hF hpx
       have hpx2 : (match x.bytes.get? x.position with | some b2 => !(b2 == bSlash) | none => false) = false := hpx
       refine Or.inr ⟨hF1, hF2, ?_⟩
       intro n1 hn1
       rw [matchLoop]
       rw [loopStep.eq_def]
       split_ifs
       dsimp only
       rw [consumeByte_single0,
         if_neg (by rw [hpx2]; exact Bool.false_ne_true)]
       dsimp only
       exact matchLoop_empty_active n1 _ _ _ _ hn1)
  all_goals try
    (cases h
     obtain ⟨⟨pnd, plen, psub, pR⟩, pmem⟩ :=
       consumeByte_step_proj (fun b => b == some c0) A _ R _ hnd rfl
     refine ⟨⟨pnd, plen, le_refl _, psub, pR⟩, ?_⟩
     intro x hx hxlt r
     obtain ⟨hT, hF⟩ := pmem x hx hxlt
     by_cases hpx : (fun b => b == some c0) x.currentByte = true
     · obtain ⟨hT1, hT2⟩ := hT hpx
       have hpx2 : (x.bytes.get? x.position == some c0) = true := hpx
       refine Or.inl ⟨x.position + 1, hT1, hT2, ?_⟩
       rw [loopStep.eq_def]
       split_ifs
       dsimp only
       rw [consumeByte_single0, if_pos hpx2]
     · rw [Bool.not_eq_true] at hpx
       obtain ⟨hF1, hF2⟩ := hF hpx
       have hpx2 : (x.bytes.get? x.position == some c0) = false := hpx
       refine Or.inr ⟨hF1, hF2, ?_⟩
       intro n1 hn1
       rw [matchLoop]
       rw [loopStep.eq_def]
       split_ifs
       dsimp only
       rw [consumeByte_single0,
         if_neg (by rw [hpx2]; exact Bool.false_ne_true)]
       dsimp only
       exact matchLoop_empty_active n1 _ _ _ _ hn1)
  all_goals try
    (cases hm : matchWildcardSegment (c0 :: rest) false qc A R with
     | error e =>
       rw [hm] at h
       cases h
     | ok t =>
       obtain ⟨mn, ma, mr⟩ := t
       rw [hm] at h
       dsimp only at h
       cases h
       obtain ⟨⟨pnd, plen, psub, pR, pwalk⟩, pmem⟩ :=
         mws_proj c0 rest false qc A R _ _ _ hnd hm
       refine ⟨⟨pnd, plen, ?_, psub, pR⟩, ?_⟩
       · rcases pwalk with hmn | ⟨B2, t2, j2, hw⟩
         · rw [hmn]
           exact Nat.zero_le _
         · exact walkSegGo_true_stop_lt B2 c0 rest hc1 _ t2 _ j2 hw
       · intro x hx hxlt r
         obtain ⟨hE, hT, hF⟩ := pmem x hx hxlt
         cases htx : tryFrom (c0 :: rest) false qc x.bytes x.position
             (x.bytes.length + 1 - x.position) x.position false with
         | error e => exact (hE e htx).elim
         | ok o =>
           cases o with
           | none =>
             obtain ⟨hF1, hF2⟩ := hF htx
             refine Or.inr ⟨hF1, hF2, ?_⟩
             intro n1 hn1
             rw [matchLoop]
             rw [loopStep.eq_def]
             split_ifs
             dsimp only
             rw [mws_single, htx]
             dsimp only
             exact matchLoop_empty_active n1 _ _ _ _ hn1
           | some v =>
             obtain ⟨np, pp⟩ := v
             obtain ⟨hT1, hT2, hT3⟩ := hT np pp htx
             refine Or.inl ⟨np, hT1, hT2, ?_⟩
             rw [loopStep.eq_def]
             split_ifs
             dsimp only
             rw [mws_single, htx, hT3])
  all_goals try
    (cases hm : matchWildcardSegment (c0 :: rest) true qc A R with
     | error e =>
       rw [hm] at h
       cases h
     | ok t =>
       obtain ⟨mn, ma, mr⟩ := t
       rw [hm] at h
       dsimp only at h
       cases h
       obtain ⟨⟨pnd, plen, psub, pR, pwalk⟩, pmem⟩ :=
         mws_proj c0 rest true qc A R _ _ _ hnd hm
       refine ⟨⟨pnd, plen, ?_, psub, pR⟩, ?_⟩
       · rcases pwalk with hmn | ⟨B2, t2, j2, hw⟩
         · rw [hmn]
           exact Nat.zero_le _
         · exact walkSegGo_true_stop_lt B2 c0 rest hc1 _ t2 _ j2 hw
       · intro x hx hxlt r
         obtain ⟨hE, hT, hF⟩ := pmem x hx hxlt
         cases htx : tryFrom (c0 :: rest) true qc x.bytes x.position
             (x.bytes.length + 1 - x.position) x.position false with
         | error e => exact (hE e htx).elim
         | ok o =>
           cases o with
           | none =>
             obtain ⟨hF1, hF2⟩ := hF htx
             refine Or.inr ⟨hF1, hF2, ?_⟩
             intro n1 hn1
             rw [matchLoop]
             rw [loopStep.eq_def]
             split_ifs
             dsimp only
             rw [mws_single, htx]
             dsimp only
             exact matchLoop_empty_active n1 _ _ _ _ hn1
           | some v =>
             obtain ⟨np, pp⟩ := v
             obtain ⟨hT1, hT2, hT3⟩ := hT np pp htx
             refine Or.inl ⟨np, hT1, hT2, ?_⟩
             rw [loopStep.eq_def]
             split_ifs
             dsimp only
             rw [mws_single, htx, hT3])
  all_goals try
    (cases hcs : extractCharset (c0 :: rest) with
     | error e =>
       rw [hcs] at h
       dsimp only at h
       cases h
     | ok t =>
       obtain ⟨charset, after⟩ := t
       rw [hcs] at h
       dsimp only at h
       cases h
       obtain ⟨⟨pnd, plen, psub, pR⟩, pmem⟩ :=
         consumeByte_step_proj
           (fun b => match b with | some b2 => charset.matches b2 | none => false)
           A _ R _ hnd rfl
       refine ⟨⟨pnd, plen, ?_, psub, pR⟩, ?_⟩
       · have := extractCharset_len _ _ _ hcs
         simp only [List.length_cons] at this
         omega
       · intro x hx hxlt r
         obtain ⟨hT, hF⟩ := pmem x hx hxlt
         by_cases hpx : (fun b => match b with | some b2 => charset.matches b2 | none => false) x.currentByte = true
         · obtain ⟨hT1, hT2⟩ := hT hpx
           have hpx2 : (match x.bytes.get? x.position with | some b2 => charset.matches b2 | none => false) = true := hpx
           refine Or.inl ⟨x.position + 1, hT1, hT2, ?_⟩
           rw [loopStep.eq_def]
           split_ifs
           dsimp only
           rw [hcs]
           dsimp only
           rw [consumeByte_single0, if_pos hpx2]
         · rw [Bool.not_eq_true] at hpx
           obtain ⟨hF1, hF2⟩ := hF hpx
           have hpx2 : (match x.bytes.get? x.position with | some b2 => charset.matches b2 | none => false) = false := hpx
           refine Or.inr ⟨hF1, hF2, ?_⟩
           intro n1 hn1
           rw [matchLoop]
           rw [loopStep.eq_def]
           split_ifs
           dsimp only
           rw [hcs]
           dsimp only
           rw [consumeByte_single0,
             if_neg (by rw [hpx2]; exact Bool.false_ne_true)]
           dsimp only
           exact matchLoop_empty_active n1 _ _ _ _ hn1)
  all_goals
    (cases rest with
     | nil =>
       dsimp only at h
       cases h
     | cons e rest2 =>
       dsimp only at h
       cases h
       obtain ⟨⟨pnd, plen, psub, pR⟩, pmem⟩ :=
         consumeByte_step_proj (fun b => b == some e) A _ R _ hnd rfl
       refine ⟨⟨pnd, plen, ?_, psub, pR⟩, ?_⟩
       · simp only [List.length_cons]
         omega
       · intro x hx hxlt r
         obtain ⟨hT, hF⟩ := pmem x hx hxlt
         by_cases hpx : (fun b => b == some e) x.currentByte = true
         · obtain ⟨hT1, hT2⟩ := hT hpx
           have hpx2 : (x.bytes.get? x.position == some e) = true := hpx
           refine Or.inl ⟨x.position + 1, hT1, hT2, ?_⟩
           rw [loopStep.eq_def]
           split_ifs
           dsimp only
           rw [consumeByte_single0, if_pos hpx2]
         · rw [Bool.not_eq_true] at hpx
           obtain ⟨hF1, hF2⟩ := hF hpx
           have hpx2 : (x.bytes.get? x.position == some e) = false := hpx
           refine Or.inr ⟨hF1, hF2, ?_⟩
           intro n1 hn1
           rw [matchLoop]
           rw [loopStep.eq_def]
           split_ifs
           dsimp only
           rw [consumeByte_single0,
             if_neg (by rw [hpx2]; exact Bool.false_ne_true)]
           dsimp only
           exact matchLoop_empty_active n1 _ _ _ _ hn1)

/-- The residual verdict of an exhausted pattern ignores the original
index of the candidate. -/
theorem exhaustVerdict_idx (st : PatternState) (i : Nat) (c : List Byte)
    (pos : Nat) :
    exhaustVerdict st ⟨i, c, pos⟩ = exhaustVerdict st ⟨0, c, pos⟩ := by
  cases st <;> rfl

/-- Once a candidate index has left the active set, its result entry is
never touched again by the main loop. -/
theorem matchLoop_dead :
    ∀ (fuel : Nat) (np : List Byte) (st : PatternState) (qc : Nat)
      (A : List ActiveString) (R rs : List Bool) (i : Nat),
      (A.map ActiveString.originalIdx).Nodup →
      (∀ a ∈ A, a.originalIdx ≠ i) →
      matchLoop fuel np st qc A R = .ok rs →
      rs.get? i = R.get? i := by
  intro fuel
  induction fuel with
  | zero => intro np st qc A R rs i _ _ h; cases h
  | succ n ih =>
    intro np st qc A R rs i hnd hdead h
    cases np with
    | nil =>
      rw [matchLoop] at h
      cases h
      exact finishActive_dead st A R i hdead
    | cons c0 rest =>
      cases A with
      | nil =>
        rw [matchLoop] at h
        cases h
        rfl
      | cons a as =>
        rw [matchLoop] at h
        cases hls : loopStep c0 rest st qc (a :: as) R with
        | error e => rw [hls] at h; cases h
        | ok t =>
          obtain ⟨next, st2, qc2, A2, R2⟩ := t
          rw [hls] at h
          dsimp only at h
          obtain ⟨⟨pnd, plen, pnext, psub, pR⟩, _⟩ :=
            loopStep_proj c0 rest st qc (a :: as) R next st2 qc2 A2 R2 hnd hls
          rw [ih next st2 qc2 A2 R2 rs i pnd ?_ h]
          · exact pR i hdead
          · intro b hb
            obtain ⟨b2, hb2, hbeq⟩ := psub b hb
            rw [← hbeq]
            exact hdead b2 hb2

/-- Driver lemma: on a duplicate-free batch, the final result entry of
any member equals the verdict of running the loop on that member alone
(with arbitrary initial entry), with the same fuel. -/
theorem matchLoop_proj :
    ∀ (fuel : Nat) (np : List Byte) (st : PatternState) (qc : Nat)
      (A : List ActiveString) (R rs : List Bool) (x : ActiveString)
      (r : Bool),
      x ∈ A → (A.map ActiveString.originalIdx).Nodup →
      x.originalIdx < R.length → np.length + 1 ≤ fuel →
      matchLoop fuel np st qc A R = .ok rs →
      ∃ v, matchLoop fuel np st qc [⟨0, x.bytes, x.position⟩] [r] =
          .ok [v] ∧
        rs.get? x.originalIdx = some v := by
  intro fuel
  induction fuel with
  | zero =>
    intro np st qc A R rs x r _ _ _ hf h
    omega
  | succ n ih =>
    intro np st qc A R rs x r hx hnd hxlt hf h
    cases np with
    | nil =>
      rw [matchLoop] at h ⊢
      cases h
      refine ⟨exhaustVerdict st ⟨0, x.bytes, x.position⟩, ?_, ?_⟩
      · rw [finishActive, finishActive]
        rfl
      · rw [finishActive_proj st A R x hx hnd hxlt]
        exact congrArg some
          (exhaustVerdict_idx st x.originalIdx x.bytes x.position)
    | cons c0 rest =>
      cases A with
      | nil => cases hx
      | cons a as =>
        rw [matchLoop] at h
        cases hls : loopStep c0 rest st qc (a :: as) R with
        | error e => rw [hls] at h; cases h
        | ok t =>
          obtain ⟨next, st2, qc2, A2, R2⟩ := t
          rw [hls] at h
          dsimp only at h
          obtain ⟨⟨pnd, plen, pnext, psub, pR⟩, pmem⟩ :=
            loopStep_proj c0 rest st qc (a :: as) R next st2 qc2 A2 R2
              hnd hls
          rcases pmem x hx hxlt r with
            ⟨pos2, hmem2, hR2, hstep⟩ | ⟨hgone, hfalse, hloop⟩
          · obtain ⟨v, hv1, hv2⟩ :=
              ih next st2 qc2 A2 R2 rs ⟨x.originalIdx, x.bytes, pos2⟩ r
                hmem2 pnd (by rw [plen]; exact hxlt)
                (by simp only [List.length_cons] at hf; omega) h
            refine ⟨v, ?_, hv2⟩
            rw [matchLoop, hstep]
            exact hv1
          · refine ⟨false, ?_, ?_⟩
            · exact hloop n (by simp only [List.length_cons] at hf; omega)
            · rw [matchLoop_dead n next st2 qc2 A2 R2 rs x.originalIdx
                pnd hgone h]
              exact hfalse

/-- Batch-to-singleton projection for match_batch: the entry a candidate
receives in a batch equals the verdict of matching it alone. -/
theorem match_batch_proj (P : List Byte) (C : List (List Byte))
    (rs : List Bool) (i : Nat) (c : List Byte)
    (hc : C.get? i = some c)
    (h : match_batch P C = .ok rs) :
    ∃ v, match_batch P [c] = .ok [v] ∧ rs.get? i = some v := by
  have hne : C.isEmpty = false := by
    cases C with
    | nil => cases hc
    | cons d ds => rfl
  rw [match_batch, hne, if_neg Bool.false_ne_true] at h
  dsimp only at h
  have hmem : (⟨i, c, 0⟩ : ActiveString) ∈
      C.enum.map fun p => (⟨p.1, p.2, 0⟩ : ActiveString) :=
    List.mem_map_of_mem _ (List.mk_mem_enum_iff_get?.mpr hc)
  have hnd : (((C.enum.map fun p => (⟨p.1, p.2, 0⟩ : ActiveString)).map
      ActiveString.originalIdx)).Nodup := by
    rw [List.map_map]
    have hfe : (ActiveString.originalIdx ∘
        fun p : Nat × List Byte =>(⟨p.1, p.2, 0⟩ : ActiveString)) =
        Prod.fst := rfl
    rw [hfe, List.enum_map_fst]
    exact List.nodup_range C.length
  have hlt : i < C.length := (List.get?_eq_some.mp hc).1
  obtain ⟨v, hv1, hv2⟩ :=
    matchLoop_proj ((stripTrailSlash (stripLeadSlash P)).length + 1)
      (stripTrailSlash (stripLeadSlash P)) .Literal 0
      (C.enum.map fun p => ⟨p.1, p.2, 0⟩)
      (List.replicate C.length false) rs ⟨i, c, 0⟩ false
      hmem hnd (by rw [List.length_replicate]; exact hlt) (le_refl _) h
  refine ⟨v, ?_, hv2⟩
  rw [match_batch_singleton_loop]
  exact hv1

/-- C3: a candidate receives the same verdict wherever it sits and
whatever the other candidates are: on any two successful batches
containing the same candidate, the entries agree, despite the shared
active set, swap-removal, early termination and the shared
next-pattern-index. -/
theorem c3_no_cross_interference (P : List Byte)
    (C C2 : List (List Byte)) (rs rs2 : List Bool) (i j : Nat)
    (c : List Byte)
    (hc : C.get? i = some c) (hc2 : C2.get? j = some c)
    (h1 : match_batch P C = .ok rs)
    (h2 : match_batch P C2 = .ok rs2) :
    rs.get? i = rs2.get? j := by
  obtain ⟨v, hv1, hv2⟩ := match_batch_proj P C rs i c hc h1
  obtain ⟨w, hw1, hw2⟩ := match_batch_proj P C2 rs2 j c hc2 h2
  rw [hv1] at hw1
  have hl : [v] = [w] := by injection hw1
  have hvw : v = w := by injection hl
  rw [hv2, hw2, hvw]

/-- C3 witness: the pattern "*.txt" against two reorderings of the same
candidates; the shared candidate "a.txt" receives the same verdict at
its respective positions. -/
theorem c3_witness :
    match_batch (bs "*.txt") [bs "a.txt", bs "b.rs"] =
      .ok [true, false] ∧
    match_batch (bs "*.txt") [bs "b.rs", bs "a.txt"] =
      .ok [false, true] ∧
    ([true, false] : List Bool).get? 0 =
      ([false, true] : List Bool).get? 1 :=
  ⟨by rfl, by rfl,
    c3_no_cross_interference (bs "*.txt")
      [bs "a.txt", bs "b.rs"] [bs "b.rs", bs "a.txt"]
      [true, false] [false, true] 0 1 (bs "a.txt")
      (by rfl) (by rfl) (by rfl) (by rfl)⟩

end GitDiffFilter
